import Mathlib

/-!
Verification of the linear-system solver core (`src/utils/solver.ts`):
Gaussian elimination, Gauss-Jordan reduction, partial-pivoted Doolittle LU
factorization with permutation tracking, and Gauss-Jordan matrix inversion.
(The repository contains several superseding rewrites of the same four
functions; the variant embedded here is the most feature-complete one —
status-classified elimination and permutation-tracked pivoted LU — which the
design notes single out as the specification target.)

The embedding works over exact rational arithmetic.  A matrix is a function
`Fin n → Fin n → ℚ`, a vector is `Fin n → ℚ`; the imperative column loops of
the source become folds over `List.range`, the in-place array updates become
pointwise functional updates, and `Math.abs` becomes `rabs`.  The single
global tolerance `EPS` is the source's `EPSILON = 1e-10`.

A second, separate model (`Js` namespace, at the end of the definitions)
embeds JavaScript number semantics (NaN, reads of missing array entries) for
the claims about dimension-mismatched calls, which the exact-arithmetic
model over `Fin n` cannot express.
-/

namespace Solver

/-- The source's `EPSILON = 1e-10`. -/
def EPS : ℚ := 1 / 10 ^ 10

/-- A square matrix: row index, then column index (`number[][]`). -/
abbrev Mat (n : ℕ) : Type := Fin n → Fin n → ℚ

/-- A vector (`number[]`). -/
abbrev Vec (n : ℕ) : Type := Fin n → ℚ

/-- `Math.abs` on an exact rational. -/
def rabs (x : ℚ) : ℚ := if x < 0 then -x else x

/-- Matrix–matrix product, `(M ⋆ N) i j = Σ_k M i k * N k j`. -/
def matMul {n : ℕ} (M N : Mat n) : Mat n :=
  fun i j => ∑ k : Fin n, M i k * N k j

/-- Matrix–vector product. -/
def mulVec {n : ℕ} (M : Mat n) (v : Vec n) : Vec n :=
  fun i => ∑ j : Fin n, M i j * v j

/-- The identity matrix. -/
def idMat (n : ℕ) : Mat n := fun i j => if i = j then 1 else 0

/-- The permutation matrix of `σ`: row `i` is the standard basis vector at
`σ i`. -/
def permMat {n : ℕ} (σ : Equiv.Perm (Fin n)) : Mat n :=
  fun i j => if σ i = j then 1 else 0

/-- A unit lower-triangular elementary matrix carrying the column of
factors `f` below position `k`: the identity plus `f i` at `(i, k)` for
every `i > k`. -/
def lowerColMat {n : ℕ} (k : Fin n) (f : Fin n → ℚ) : Mat n :=
  fun i j => if i = j then 1 else if j = k ∧ k < i then f i else 0

/-- The source's solution-status tag: `'unique' | 'infinite' | 'none'`. -/
inductive SolutionStatus where
  | unique
  | infinite
  | none
deriving DecidableEq, Repr

/-- The source's `SolverResult` record: a status plus optional solution and
optional `L`, `U`, `P` matrices (the latter set only by the LU path). -/
structure SolverResult (n : ℕ) where
  status : SolutionStatus
  solution : Option (Vec n) := Option.none
  L : Option (Mat n) := Option.none
  U : Option (Mat n) := Option.none
  P : Option (Mat n) := Option.none
deriving DecidableEq

/-- Swap rows `p` and `m` of a matrix
(`[A[p], A[m]] = [A[m], A[p]]` in the source). -/
def swapRow {n : ℕ} (M : Mat n) (p m : Fin n) : Mat n :=
  fun i j => if i = p then M m j else if i = m then M p j else M i j

/-- Swap entries `p` and `m` of a vector. -/
def swapVec {n : ℕ} (v : Vec n) (p m : Fin n) : Vec n :=
  fun i => if i = p then v m else if i = m then v p else v i

/-- Body of the partial-pivot search loop: keep the row whose entry in
column `col` has strictly larger absolute value (ties keep the earlier
row). -/
def pickBest {n : ℕ} (M : Mat n) (col : Fin n) (best : Fin n) (i : ℕ) : Fin n :=
  if h : i < n then
    if rabs (M best col) < rabs (M ⟨i, h⟩ col) then ⟨i, h⟩ else best
  else best

/-- The partial-pivot search shared by all four algorithms: starting from
candidate `start`, scan rows `start+1 .. n-1`. -/
def selectPivot {n : ℕ} (M : Mat n) (col start : Fin n) : Fin n :=
  (List.range' (start.val + 1) (n - (start.val + 1))).foldl (pickBest M col) start

/-! ### Gaussian elimination (`solveGaussElimination`) -/

/-- Working state of the Gaussian-elimination forward phase: the working
copies `A`, `b` and the `pivotRow` counter. -/
structure GEState (n : ℕ) where
  A : Mat n
  b : Vec n
  pr : ℕ
deriving DecidableEq

/-- One iteration of the forward-elimination column loop of
`solveGaussElimination`, for column `col`: find the pivot by partial
pivoting; if its magnitude is below `EPS` skip the column; otherwise swap
the pivot row into position `pivotRow`, eliminate the column from all rows
below (the eliminated entry set to exactly `0`, the factor read before the
update), and advance `pivotRow`.  When `pivotRow = n` the source's loop has
exited, so the step is the identity. -/
def geStep {n : ℕ} (st : GEState n) (col : ℕ) : GEState n :=
  if h : col < n ∧ st.pr < n then
    let c : Fin n := ⟨col, h.1⟩
    let p : Fin n := ⟨st.pr, h.2⟩
    let m := selectPivot st.A c p
    if rabs (st.A m c) < EPS then st
    else
      let A1 := swapRow st.A p m
      let b1 := swapVec st.b p m
      let A2 : Mat n := fun i j =>
        if p < i then
          if j = c then 0
          else if c < j then A1 i j - A1 i c / A1 p c * A1 p j
          else A1 i j
        else A1 i j
      let b2 : Vec n := fun i =>
        if p < i then b1 i - A1 i c / A1 p c * b1 p else b1 i
      ⟨A2, b2, st.pr + 1⟩
  else st

/-- The forward phase after the first `k` columns. -/
def geRun {n : ℕ} (A : Mat n) (b : Vec n) (k : ℕ) : GEState n :=
  (List.range k).foldl geStep ⟨A, b, 0⟩

/-- The full forward phase: the column loop `for col in 0..n-1`. -/
def geForward {n : ℕ} (A : Mat n) (b : Vec n) : GEState n := geRun A b n

/-- The inconsistency scan after the forward phase: `true` iff some row
`i ≥ pivotRow` has `|b[i]| > EPSILON`. -/
def geBad {n : ℕ} (st : GEState n) : Bool :=
  (List.range' st.pr (n - st.pr)).any fun i =>
    if h : i < n then decide (EPS < rabs (st.b ⟨i, h⟩)) else false

/-- Back substitution, as the source's downward loop: starting from the
all-zero vector, stage `m+1` fills index `i = n-1-m` with
`(b i - Σ_{j>i} A i j * x j) / A i i`. -/
def bsAux {n : ℕ} (A : Mat n) (b : Vec n) : ℕ → Vec n
  | 0 => fun _ => 0
  | m + 1 =>
    let x := bsAux A b m
    if h : n - (m + 1) < n then
      let i : Fin n := ⟨n - (m + 1), h⟩
      Function.update x i
        ((b i - ∑ j : Fin n, if i < j then A i j * x j else 0) / A i i)
    else x

/-- The solution vector produced by back substitution. -/
def backSubst {n : ℕ} (A : Mat n) (b : Vec n) : Vec n := bsAux A b n

/-- `solveGaussElimination`: forward elimination, inconsistency check,
rank check, back substitution. -/
def solveGaussElimination {n : ℕ} (A : Mat n) (b : Vec n) : SolverResult n :=
  let st := geForward A b
  if geBad st then { status := .none }
  else if st.pr < n then { status := .infinite }
  else { status := .unique, solution := some (backSubst st.A st.b) }

/-! ### Gauss-Jordan elimination (`solveGaussJordan`) -/

/-- The pivoting body of the Gauss-Jordan column loop, for pivot column
`c`, pivot position `p` and selected pivot row `m`: swap rows `p` and `m`
(in the matrix and in `b`), normalize the pivot row (divide the entries
from column `c` rightward, and the `b`-entry, by the pivot value), then for
every other row subtract `factor` times the normalized pivot row over the
columns from `c` rightward and from the `b`-entry, where `factor` is the
row's entry in column `c` (read before the update). -/
def gjPivotStep {n : ℕ} (st : GEState n) (c p m : Fin n) : GEState n :=
  let A1 := swapRow st.A p m
  let b1 := swapVec st.b p m
  let piv := A1 p c
  let A2 : Mat n := fun i j =>
    if i = p ∧ c ≤ j then A1 i j / piv else A1 i j
  let b2 : Vec n := fun i => if i = p then b1 i / piv else b1 i
  let A3 : Mat n := fun i j =>
    if i ≠ p ∧ c ≤ j then A2 i j - A2 i c * A2 p j else A2 i j
  let b3 : Vec n := fun i =>
    if i ≠ p then b2 i - A2 i c * b2 p else b2 i
  ⟨A3, b3, st.pr + 1⟩

/-- One iteration of the Gauss-Jordan column loop: same pivot search and
skip rule as Gaussian elimination, then the pivoting body `gjPivotStep`. -/
def gjStep {n : ℕ} (st : GEState n) (col : ℕ) : GEState n :=
  if h : col < n ∧ st.pr < n then
    let c : Fin n := ⟨col, h.1⟩
    let p : Fin n := ⟨st.pr, h.2⟩
    let m := selectPivot st.A c p
    if rabs (st.A m c) < EPS then st
    else gjPivotStep st c p m
  else st

/-- The Gauss-Jordan elimination phase after the first `k` columns. -/
def gjRun {n : ℕ} (A : Mat n) (b : Vec n) (k : ℕ) : GEState n :=
  (List.range k).foldl gjStep ⟨A, b, 0⟩

/-- The loop invariant of the Gauss-Jordan phase after `k` columns: every
row already used as a pivot owns a processed column holding its standard
basis vector, and in every processed column all rows at or below the
pivot counter carry entries of magnitude below `EPSILON` (they are exact
zeros in pivot columns and below-tolerance rejects in skipped columns). -/
structure GJInvariant {n : ℕ} (k : ℕ) (st : GEState n) : Prop where
  pivOnes : ∀ r : Fin n, r.val < st.pr →
    ∃ c : Fin n, c.val < k ∧ ∀ i : Fin n, st.A i c = if i = r then 1 else 0
  smallCols : ∀ c : Fin n, c.val < k → ∀ i : Fin n, st.pr ≤ i.val → rabs (st.A i c) < EPS

/-- The inconsistency scan of `solveGaussJordan`: `true` iff some row has
every coefficient entry of magnitude `≤ EPSILON` (the source's inner loop
finds no entry with `|A[i][j]| > EPSILON`) while `|b[i]| > EPSILON`. -/
def gjBad {n : ℕ} (st : GEState n) : Bool :=
  (List.range n).any fun i =>
    if h : i < n then
      ((List.range n).all fun j =>
          if h' : j < n then ! decide (EPS < rabs (st.A ⟨i, h⟩ ⟨j, h'⟩)) else true)
        && decide (EPS < rabs (st.b ⟨i, h⟩))
    else false

/-- `solveGaussJordan`: reduction to reduced row-echelon form, consistency
check, and the transformed `b` as the solution. -/
def solveGaussJordan {n : ℕ} (A : Mat n) (b : Vec n) : SolverResult n :=
  let st := gjRun A b n
  if gjBad st then { status := .none }
  else if st.pr < n then { status := .infinite }
  else { status := .unique, solution := some st.b }

/-! ### LU factorization (`solveLUFactorization`) -/

/-- Working state of the LU decomposition loop: the working copy `U`, the
factor matrix `L`, the permutation matrix `P` and the permuted right-hand
side `Pb`. -/
structure LUState (n : ℕ) where
  U : Mat n
  L : Mat n
  P : Mat n
  Pb : Vec n
deriving DecidableEq

/-- The pivoting phase of LU step `k`: find the pivot row at or below `k`
in column `k` of `U`; if it differs from `k`, swap the rows of `U`, of `P`,
the entries of `Pb`, and the entries of `L` in columns `0..k-1` only. -/
def luSwapPhase {n : ℕ} (st : LUState n) (k : ℕ) (h : k < n) : LUState n :=
  let kF : Fin n := ⟨k, h⟩
  let m := selectPivot st.U kF kF
  if m = kF then st
  else
    { U := swapRow st.U kF m
      P := swapRow st.P kF m
      Pb := swapVec st.Pb kF m
      L := fun i j =>
        if j.val < k then
          if i = kF then st.L m j else if i = m then st.L kF j else st.L i j
        else st.L i j }

/-- One iteration of the LU decomposition loop: pivoting phase, then the
structural-singularity test `|U[k][k]| < EPSILON` (on delegation the whole
call falls back to Gaussian elimination, signalled here by `none`), then
elimination of column `k` below the pivot, recording each factor in
`L[i][k]` and zeroing `U[i][k]`. -/
def luStep {n : ℕ} (st : LUState n) (k : ℕ) : Option (LUState n) :=
  if h : k < n then
    let kF : Fin n := ⟨k, h⟩
    let st1 := luSwapPhase st k h
    if rabs (st1.U kF kF) < EPS then Option.none
    else
      some
        { U := fun i j =>
            if kF < i then
              if j = kF then 0
              else if kF < j then st1.U i j - st1.U i kF / st1.U kF kF * st1.U kF j
              else st1.U i j
            else st1.U i j
          L := fun i j =>
            if kF < i ∧ j = kF then st1.U i kF / st1.U kF kF else st1.L i j
          P := st1.P
          Pb := st1.Pb }
  else some st

/-- The initial LU state: `U` a copy of the input, `L` and `P` identity,
`Pb` a copy of the right-hand side. -/
def luInit {n : ℕ} (A : Mat n) (b : Vec n) : LUState n :=
  ⟨A, idMat n, idMat n, b⟩

/-- The LU decomposition after the first `k` stages (`none` once any stage
has delegated). -/
def luRun {n : ℕ} (A : Mat n) (b : Vec n) (k : ℕ) : Option (LUState n) :=
  (List.range k).foldl (fun ost i => ost.bind (luStep · i)) (some (luInit A b))

/-- The loop invariant of the LU decomposition, after `k` completed stages:
`L` is unit lower-triangular with its columns from `k` rightward still
untouched (identity columns); `P` is the permutation matrix of some `σ`
and `Pb` is `b` permuted by the same `σ`; `U` is zero below the diagonal in
its first `k` columns, with the first `k` pivots all of magnitude at least
`EPSILON`; and `P·A = L·U` holds exactly. -/
structure LUInvariant {n : ℕ} (A : Mat n) (b : Vec n) (k : ℕ) (st : LUState n) : Prop where
  lowerL : ∀ i j : Fin n, i < j → st.L i j = 0
  diagL : ∀ i : Fin n, st.L i i = 1
  freshL : ∀ i j : Fin n, k ≤ j.val → i ≠ j → st.L i j = 0
  perm : ∃ σ : Equiv.Perm (Fin n), (∀ i j, st.P i j = if σ i = j then 1 else 0) ∧
           ∀ i, st.Pb i = b (σ i)
  lowerU : ∀ i j : Fin n, j < i → j.val < k → st.U i j = 0
  pivots : ∀ j : Fin n, j.val < k → EPS ≤ rabs (st.U j j)
  factor : matMul st.P A = matMul st.L st.U

/-- Forward substitution `L·y = Pb`, as the source's upward loop: stage
`m+1` fills index `i = m` with `(Pb i - Σ_{j<i} L i j * y j) / L i i`. -/
def fsAux {n : ℕ} (L : Mat n) (Pb : Vec n) : ℕ → Vec n
  | 0 => fun _ => 0
  | m + 1 =>
    let y := fsAux L Pb m
    if h : m < n then
      let i : Fin n := ⟨m, h⟩
      Function.update y i
        ((Pb i - ∑ j : Fin n, if j < i then L i j * y j else 0) / L i i)
    else y

/-- The forward-substitution result. -/
def forwardSubst {n : ℕ} (L : Mat n) (Pb : Vec n) : Vec n := fsAux L Pb n

/-- Backward substitution `U·x = y` with the source's per-row re-check of
`|U[i][i]|` against `EPSILON` (`none` = delegate to Gaussian elimination):
stage `m+1` processes index `i = n-1-m`. -/
def bscAux {n : ℕ} (U : Mat n) (y : Vec n) : ℕ → Option (Vec n)
  | 0 => some fun _ => 0
  | m + 1 =>
    (bscAux U y m).bind fun x =>
      if h : n - (m + 1) < n then
        let i : Fin n := ⟨n - (m + 1), h⟩
        if rabs (U i i) < EPS then Option.none
        else
          some (Function.update x i
            ((y i - ∑ j : Fin n, if i < j then U i j * x j else 0) / U i i))
      else some x

/-- The checked backward-substitution result. -/
def backSubstChecked {n : ℕ} (U : Mat n) (y : Vec n) : Option (Vec n) :=
  bscAux U y n

/-- `solveLUFactorization`: pivoted Doolittle decomposition; on a pivot
below `EPSILON` (in the decomposition or in the backward-substitution
re-check) the entire call is delegated to `solveGaussElimination matrix
vector`; otherwise forward and backward substitution produce the solution,
returned together with `L`, `U`, `P`. -/
def solveLUFactorization {n : ℕ} (A : Mat n) (b : Vec n) : SolverResult n :=
  match luRun A b n with
  | Option.none => solveGaussElimination A b
  | some st =>
    let y := forwardSubst st.L st.Pb
    match backSubstChecked st.U y with
    | Option.none => solveGaussElimination A b
    | some x =>
      { status := .unique, solution := some x,
        L := some st.L, U := some st.U, P := some st.P }

/-! ### Matrix inversion (`findInverse`) -/

/-- Working state of `findInverse`: the working copy `A` and the augmented
identity `I` being turned into the inverse. -/
structure InvState (n : ℕ) where
  A : Mat n
  I : Mat n
deriving DecidableEq

/-- The pivoting body of the `findInverse` column loop, for pivot column
`iF` and selected pivot row `m`: swap rows `iF` and `m` in both matrices,
normalize row `iF` of both by the pivot value, then eliminate column `iF`
from every other row of both matrices, the factor `A[r][iF]` read before
the update. -/
def invPivotStep {n : ℕ} (st : InvState n) (iF m : Fin n) : InvState n :=
  let A1 := swapRow st.A iF m
  let I1 := swapRow st.I iF m
  let piv := A1 iF iF
  let A2 : Mat n := fun r j => if r = iF then A1 r j / piv else A1 r j
  let I2 : Mat n := fun r j => if r = iF then I1 r j / piv else I1 r j
  { A := fun r j => if r ≠ iF then A2 r j - A2 r iF * A2 iF j else A2 r j
    I := fun r j => if r ≠ iF then I2 r j - A2 r iF * I2 iF j else I2 r j }

/-- One iteration of the `findInverse` column loop: partial pivoting with a
swap of rows `i`,`maxRow` in both matrices, then the singularity test
`|A[i][i]| < EPSILON` (on failure the whole call returns `null`, signalled
here by `none`), then the pivoting body `invPivotStep`. -/
def invStep {n : ℕ} (st : InvState n) (i : ℕ) : Option (InvState n) :=
  if h : i < n then
    let iF : Fin n := ⟨i, h⟩
    let m := selectPivot st.A iF iF
    if rabs (swapRow st.A iF m iF iF) < EPS then Option.none
    else some (invPivotStep st iF m)
  else some st

/-- The inversion state after the first `k` columns. -/
def invRun {n : ℕ} (A : Mat n) (k : ℕ) : Option (InvState n) :=
  (List.range k).foldl (fun ost i => ost.bind (invStep · i)) (some ⟨A, idMat n⟩)

/-- `findInverse`: Gauss-Jordan on `[A | I]`; `none` models the source's
`null` (singular matrix). -/
def findInverse {n : ℕ} (A : Mat n) : Option (Mat n) :=
  (invRun A n).map (·.I)

/-! ### Concrete inputs used to exercise the solvers -/

/-- The 1-by-1 matrix `[[1]]`. -/
def oneMat : Mat 1 := fun _ _ => 1

/-- The length-1 vector `[1]`. -/
def oneVec : Vec 1 := fun _ => 1

/-- The 1-by-1 matrix `[[0]]`. -/
def zeroMat : Mat 1 := fun _ _ => 0

/-- The length-1 vector `[0]`. -/
def zeroVec : Vec 1 := fun _ => 0

/-- The LU state `solveLUFactorization` reaches on `[[1]]`, `[1]`. -/
def luOneSt : LUState 1 := ⟨oneMat, idMat 1, idMat 1, oneVec⟩

/-- The empty 0-by-0 matrix. -/
def emptyMat : Mat 0 := fun i _ => i.elim0

/-- The empty vector. -/
def emptyVec : Vec 0 := fun i => i.elim0

end Solver

namespace Js

/-!
### JavaScript-number model

`solveGaussElimination` again, but over JavaScript number semantics, to
settle the claims about calls whose vector length does not match the matrix
dimension.  A JS number is either an exact rational or the absorbing
non-number `nan`; `nan` also stands for the `undefined` produced by reading
a missing array entry, which behaves identically in every operation the
solver performs on it (arithmetic yields NaN, `Math.abs` yields NaN, and
every `<`/`>` comparison is false).  Division by zero (which in JS yields
±Infinity) never occurs in the runs examined here, and is mapped to `nan`.
Arrays are total maps from ℕ: reads beyond the populated prefix give `nan`,
and writes extend the map, exactly as a JS array extends on out-of-range
assignment.
-/

/-- A JavaScript number: an exact rational, or NaN (also standing for
`undefined`, which behaves the same in every operation used here). -/
inductive JsNum where
  | num (q : ℚ)
  | nan
deriving DecidableEq, Repr

/-- Addition; any non-number operand yields NaN. -/
def jadd : JsNum → JsNum → JsNum
  | .num a, .num b => .num (a + b)
  | _, _ => .nan

/-- Subtraction; any non-number operand yields NaN. -/
def jsub : JsNum → JsNum → JsNum
  | .num a, .num b => .num (a - b)
  | _, _ => .nan

/-- Multiplication; any non-number operand yields NaN (in JS, `0 * NaN`
is NaN). -/
def jmul : JsNum → JsNum → JsNum
  | .num a, .num b => .num (a * b)
  | _, _ => .nan

/-- Division; any non-number operand yields NaN; a zero divisor (never
exercised in the runs below) is also mapped to NaN. -/
def jdiv : JsNum → JsNum → JsNum
  | .num a, .num b => if b = 0 then .nan else .num (a / b)
  | _, _ => .nan

/-- `Math.abs`. -/
def jabs : JsNum → JsNum
  | .num a => .num (Solver.rabs a)
  | .nan => .nan

/-- The comparison `a < b`; false whenever an operand is NaN. -/
def jlt : JsNum → JsNum → Bool
  | .num a, .num b => decide (a < b)
  | _, _ => false

/-- The comparison `a > b`; false whenever an operand is NaN. -/
def jgt : JsNum → JsNum → Bool
  | .num a, .num b => decide (b < a)
  | _, _ => false

/-- `EPSILON` as a JS number. -/
def jeps : JsNum := .num Solver.EPS

/-- A JS array of numbers: a total map, `nan` beyond the populated
prefix. -/
abbrev JsVec : Type := ℕ → JsNum

/-- A JS matrix. -/
abbrev JsMat : Type := ℕ → ℕ → JsNum

/-- The JS array built from a list of rationals. -/
def ofList (l : List ℚ) : JsVec := fun i =>
  match l.get? i with
  | some q => .num q
  | Option.none => .nan

/-- The JS matrix built from a list of rows. -/
def ofRows (l : List (List ℚ)) : JsMat := fun i =>
  match l.get? i with
  | some r => ofList r
  | Option.none => fun _ => .nan

/-- Swap two entries of a JS array. -/
def jswap (v : JsVec) (p m : ℕ) : JsVec :=
  fun i => if i = p then v m else if i = m then v p else v i

/-- Swap two rows of a JS matrix. -/
def jswapRow (M : JsMat) (p m : ℕ) : JsMat :=
  fun i => if i = p then M m else if i = m then M p else M i

/-- The working state of the JS-semantics Gaussian elimination. -/
structure GEState where
  A : JsMat
  b : JsVec
  pr : ℕ

/-- The pivot search over rows `start+1 .. n-1`. -/
def jselectPivot (A : JsMat) (n col start : ℕ) : ℕ :=
  (List.range' (start + 1) (n - (start + 1))).foldl
    (fun best i => if jgt (jabs (A i col)) (jabs (A best col)) then i else best)
    start

/-- One column iteration of `solveGaussElimination` under JS semantics. -/
def jgeStep (n : ℕ) (st : GEState) (col : ℕ) : GEState :=
  if st.pr < n then
    let m := jselectPivot st.A n col st.pr
    if jlt (jabs (st.A m col)) jeps then st
    else
      let A1 := jswapRow st.A st.pr m
      let b1 := jswap st.b st.pr m
      let A2 : JsMat := fun i j =>
        if st.pr < i ∧ i < n then
          if j = col then .num 0
          else if col < j then jsub (A1 i j) (jmul (jdiv (A1 i col) (A1 st.pr col)) (A1 st.pr j))
          else A1 i j
        else A1 i j
      let b2 : JsVec := fun i =>
        if st.pr < i ∧ i < n then jsub (b1 i) (jmul (jdiv (A1 i col) (A1 st.pr col)) (b1 st.pr))
        else b1 i
      ⟨A2, b2, st.pr + 1⟩
  else st

/-- The JS back-substitution loop (the solution array starts as
`new Array(n).fill(0)`), processing `i = n-1` down to `0`; stage `m+1`
fills index `n-1-m` using `x[i] = (b[i] - Σ_{j>i} A[i][j]*x[j]) / A[i][i]`. -/
def jbsAux (n : ℕ) (A : JsMat) (b : JsVec) : ℕ → JsVec
  | 0 => fun _ => .num 0
  | m + 1 =>
    let x := jbsAux n A b m
    let i := n - (m + 1)
    fun r =>
      if r = i then
        jdiv (jsub (b i) ((List.range n).foldl
          (fun s j => if i < j then jadd s (jmul (A i j) (x j)) else s) (.num 0))) (A i i)
      else x r

/-- The result of the JS-semantics run: the status tag and the solution
array when the status is `'unique'`. -/
structure JsResult where
  status : Solver.SolutionStatus
  solution : Option JsVec := Option.none

/-- `solveGaussElimination` under JS semantics, for a matrix whose
`length` is `n` and an arbitrary (possibly shorter) vector. -/
def jsolveGaussElimination (n : ℕ) (A : JsMat) (b : JsVec) : JsResult :=
  let st := (List.range n).foldl (jgeStep n) ⟨A, b, 0⟩
  if (List.range' st.pr (n - st.pr)).any (fun i => jgt (jabs (st.b i)) jeps) then
    { status := .none }
  else if st.pr < n then { status := .infinite }
  else { status := .unique, solution := some (jbsAux n st.A st.b n) }

/-- The 3-by-3 identity matrix as a JS value, the matrix of the
dimension-mismatch scenario. -/
def I3 : JsMat := ofRows [[1, 0, 0], [0, 1, 0], [0, 0, 1]]

/-- The length-2 vector `[1, 2]` as a JS array; reading index 2 yields
`undefined` (modelled as NaN). -/
def bv2 : JsVec := ofList [1, 2]

end Js

namespace Solver

/-! ### Basic lemmas -/

theorem rabs_eq_abs (x : ℚ) : rabs x = |x| := by
  rw [rabs, abs]
  rcases lt_trichotomy x 0 with h | h | h
  · rw [if_pos h, max_eq_right (by linarith)]
  · simp [h]
  · rw [if_neg (by linarith), max_eq_left (by linarith)]

theorem rabs_nonneg (x : ℚ) : 0 ≤ rabs x := by rw [rabs_eq_abs]; exact abs_nonneg x

theorem EPS_pos : (0 : ℚ) < EPS := by norm_num [EPS]

theorem ne_zero_of_EPS_le {x : ℚ} (h : EPS ≤ rabs x) : x ≠ 0 := by
  intro h0
  rw [h0, rabs_eq_abs, abs_zero] at h
  exact absurd (lt_of_lt_of_le EPS_pos h) (lt_irrefl 0)

theorem mem_range1 {m s len : ℕ} : m ∈ List.range' s len ↔ s ≤ m ∧ m < s + len := by
  rw [List.mem_range']
  constructor
  · rintro ⟨i, hi, rfl⟩; omega
  · intro ⟨h1, h2⟩; exact ⟨m - s, by omega, by omega⟩

theorem geRun_succ {n : ℕ} (A : Mat n) (b : Vec n) (k : ℕ) :
    geRun A b (k + 1) = geStep (geRun A b k) k := by
  rw [geRun, geRun, List.range_succ, List.foldl_append, List.foldl_cons, List.foldl_nil]

theorem gjRun_succ {n : ℕ} (A : Mat n) (b : Vec n) (k : ℕ) :
    gjRun A b (k + 1) = gjStep (gjRun A b k) k := by
  rw [gjRun, gjRun, List.range_succ, List.foldl_append, List.foldl_cons, List.foldl_nil]

theorem luRun_succ {n : ℕ} (A : Mat n) (b : Vec n) (k : ℕ) :
    luRun A b (k + 1) = (luRun A b k).bind (luStep · k) := by
  rw [luRun, luRun, List.range_succ, List.foldl_append, List.foldl_cons, List.foldl_nil]

theorem invRun_succ {n : ℕ} (A : Mat n) (k : ℕ) :
    invRun A (k + 1) = (invRun A k).bind (invStep · k) := by
  rw [invRun, invRun, List.range_succ, List.foldl_append, List.foldl_cons, List.foldl_nil]

theorem luRun_none_mono {n : ℕ} (A : Mat n) (b : Vec n) {k k' : ℕ} (hk : k ≤ k')
    (h : luRun A b k = Option.none) : luRun A b k' = Option.none := by
  induction k' with
  | zero => exact (Nat.le_zero.mp hk) ▸ h
  | succ k' ih =>
    rcases Nat.lt_or_ge k (k' + 1) with h' | h'
    · rw [luRun_succ, ih (by omega), Option.none_bind]
    · exact (Nat.le_antisymm hk h') ▸ h

/-! ### Pivot-search lemmas -/

theorem foldl_pickBest_le {n : ℕ} (M : Mat n) (col : Fin n) (start : Fin n) :
    ∀ (l : List ℕ), (∀ a ∈ l, start.val ≤ a) → ∀ (best : Fin n), start ≤ best →
      start ≤ l.foldl (pickBest M col) best := by
  intro l
  induction l with
  | nil => intro _ best hb; exact hb
  | cons a l ih =>
    intro hl best hb
    rw [List.foldl_cons]
    refine ih (fun x hx => hl x (List.mem_cons_of_mem a hx)) _ ?_
    rw [pickBest]
    split
    · split
      · exact Fin.le_def.mpr (hl a (List.mem_cons_self a l))
      · exact hb
    · exact hb

theorem foldl_pickBest_max {n : ℕ} (M : Mat n) (col : Fin n) :
    ∀ (l : List ℕ) (best : Fin n),
      rabs (M best col) ≤ rabs (M (l.foldl (pickBest M col) best) col) ∧
      ∀ a ∈ l, ∀ h : a < n, rabs (M ⟨a, h⟩ col) ≤ rabs (M (l.foldl (pickBest M col) best) col) := by
  intro l
  induction l with
  | nil => intro best; exact ⟨le_refl _, by simp⟩
  | cons a l ih =>
    intro best
    rw [List.foldl_cons]
    obtain ⟨h1, h2⟩ := ih (pickBest M col best a)
    have hbest : rabs (M best col) ≤ rabs (M (pickBest M col best a) col) := by
      rw [pickBest]
      split
      · split
        · next hlt => exact le_of_lt hlt
        · exact le_refl _
      · exact le_refl _
    refine ⟨le_trans hbest h1, ?_⟩
    intro x hx hxn
    rcases List.mem_cons.mp hx with rfl | hx'
    · refine le_trans ?_ h1
      rw [pickBest, dif_pos hxn]
      split
      · exact le_refl _
      · next hnlt => exact le_of_not_lt hnlt
    · exact h2 x hx' hxn

theorem foldl_pickBest_congr {n : ℕ} (M N : Mat n) (col : Fin n) (start : Fin n)
    (hMN : ∀ i : Fin n, start ≤ i → M i col = N i col) :
    ∀ (l : List ℕ), (∀ a ∈ l, start.val ≤ a) → ∀ (best : Fin n), start ≤ best →
      l.foldl (pickBest M col) best = l.foldl (pickBest N col) best := by
  intro l
  induction l with
  | nil => intro _ best _; rfl
  | cons a l ih =>
    intro hl best hb
    rw [List.foldl_cons, List.foldl_cons]
    have hstep : pickBest M col best a = pickBest N col best a := by
      rw [pickBest, pickBest]
      split
      · next h =>
        rw [hMN best hb, hMN ⟨a, h⟩ (Fin.le_def.mpr (hl a (List.mem_cons_self a l)))]
      · rfl
    rw [hstep]
    refine ih (fun x hx => hl x (List.mem_cons_of_mem a hx)) _ ?_
    rw [pickBest]
    split
    · split
      · exact Fin.le_def.mpr (hl a (List.mem_cons_self a l))
      · exact hb
    · exact hb

theorem selectPivot_le {n : ℕ} (M : Mat n) (col start : Fin n) :
    start ≤ selectPivot M col start := by
  refine foldl_pickBest_le M col start _ ?_ start (le_refl _)
  intro a ha
  have := (mem_range1.mp ha).1
  omega

theorem selectPivot_max {n : ℕ} (M : Mat n) (col start : Fin n) :
    ∀ i : Fin n, start ≤ i → rabs (M i col) ≤ rabs (M (selectPivot M col start) col) := by
  intro i hi
  obtain ⟨h1, h2⟩ := foldl_pickBest_max M col
    (List.range' (start.val + 1) (n - (start.val + 1))) start
  rcases eq_or_lt_of_le hi with heq | hlt
  · exact heq ▸ h1
  · have hmem : i.val ∈ List.range' (start.val + 1) (n - (start.val + 1)) := by
      rw [mem_range1]
      have := i.isLt
      have : start.val < i.val := hlt
      omega
    have := h2 i.val hmem i.isLt
    simpa using this

theorem selectPivot_congr {n : ℕ} (M N : Mat n) (col start : Fin n)
    (hMN : ∀ i : Fin n, start ≤ i → M i col = N i col) :
    selectPivot M col start = selectPivot N col start := by
  refine foldl_pickBest_congr M N col start hMN _ ?_ start (le_refl _)
  intro a ha
  have := (mem_range1.mp ha).1
  omega

/-! ### Matrix-algebra lemmas -/

theorem matMul_assoc {n : ℕ} (M N P : Mat n) :
    matMul (matMul M N) P = matMul M (matMul N P) := by
  funext i j
  show (∑ k : Fin n, (∑ m : Fin n, M i m * N m k) * P k j)
      = ∑ m : Fin n, M i m * ∑ k : Fin n, N m k * P k j
  simp only [Finset.sum_mul, Finset.mul_sum, mul_assoc]
  exact Finset.sum_comm

theorem matMul_idMat_left {n : ℕ} (M : Mat n) : matMul (idMat n) M = M := by
  funext i j
  show (∑ k : Fin n, (if i = k then (1:ℚ) else 0) * M k j) = M i j
  simp [ite_mul, Finset.sum_ite_eq]

theorem matMul_idMat_right {n : ℕ} (M : Mat n) : matMul M (idMat n) = M := by
  funext i j
  show (∑ k : Fin n, M i k * if k = j then (1:ℚ) else 0) = M i j
  simp [mul_ite, Finset.sum_ite_eq']

theorem permMat_mul_left {n : ℕ} (σ : Equiv.Perm (Fin n)) (M : Mat n) :
    matMul (permMat σ) M = fun i j => M (σ i) j := by
  funext i j
  show (∑ k : Fin n, (if σ i = k then (1:ℚ) else 0) * M k j) = M (σ i) j
  simp [ite_mul, Finset.sum_ite_eq]

theorem matMul_permMat_right {n : ℕ} (M : Mat n) (σ : Equiv.Perm (Fin n)) :
    matMul M (permMat σ) = fun i j => M i (σ.symm j) := by
  funext i j
  show (∑ k : Fin n, M i k * if σ k = j then (1:ℚ) else 0) = M i (σ.symm j)
  have h : ∀ k : Fin n, (σ k = j) = (k = σ.symm j) := by
    intro k
    rw [eq_iff_iff]
    constructor
    · intro hk; rw [← hk, Equiv.symm_apply_apply]
    · intro hk; rw [hk, Equiv.apply_symm_apply]
  simp only [h]
  simp [mul_ite, Finset.sum_ite_eq']

theorem permMat_trans {n : ℕ} (σ τ : Equiv.Perm (Fin n)) :
    matMul (permMat σ) (permMat τ) = permMat (σ.trans τ) := by
  rw [permMat_mul_left]
  funext i j
  rfl

theorem permMat_refl {n : ℕ} : permMat (Equiv.refl (Fin n)) = idMat n := rfl

theorem mulVec_matMul {n : ℕ} (M N : Mat n) (v : Vec n) :
    mulVec (matMul M N) v = mulVec M (mulVec N v) := by
  funext i
  show (∑ j : Fin n, (∑ k : Fin n, M i k * N k j) * v j)
      = ∑ k : Fin n, M i k * ∑ j : Fin n, N k j * v j
  simp only [Finset.sum_mul, Finset.mul_sum, mul_assoc]
  exact Finset.sum_comm

theorem permMat_mulVec {n : ℕ} (σ : Equiv.Perm (Fin n)) (v : Vec n) :
    mulVec (permMat σ) v = fun i => v (σ i) := by
  funext i
  show (∑ j : Fin n, (if σ i = j then (1:ℚ) else 0) * v j) = v (σ i)
  simp [ite_mul, Finset.sum_ite_eq]

theorem swapRow_perm {n : ℕ} (M : Mat n) (p q : Fin n) :
    swapRow M p q = fun i j => M (Equiv.swap p q i) j := by
  funext i j
  rw [swapRow, Equiv.swap_apply_def]
  by_cases h1 : i = p
  · simp [h1]
  · by_cases h2 : i = q
    · simp only [h1, h2, if_neg, if_pos, if_true, if_false]
      split_ifs <;> rfl
    · simp [h1, h2]

theorem swapVec_perm {n : ℕ} (v : Vec n) (p q : Fin n) :
    swapVec v p q = fun i => v (Equiv.swap p q i) := by
  funext i
  rw [swapVec, Equiv.swap_apply_def]
  by_cases h1 : i = p
  · simp [h1]
  · by_cases h2 : i = q
    · simp only [h1, h2, if_neg, if_pos, if_true, if_false]
      split_ifs <;> rfl
    · simp [h1, h2]

theorem lowerColMat_mul_apply {n : ℕ} (k : Fin n) (f : Fin n → ℚ) (M : Mat n) :
    matMul (lowerColMat k f) M =
      fun i j => M i j + if k < i then f i * M k j else 0 := by
  funext i j
  show (∑ m : Fin n, (if i = m then 1 else if m = k ∧ k < i then f i else 0) * M m j)
      = M i j + if k < i then f i * M k j else 0
  have hsplit : ∀ m : Fin n,
      (if i = m then (1:ℚ) else if m = k ∧ k < i then f i else 0) * M m j
        = (if i = m then M m j else 0) + (if m = k ∧ k < i then f i * M k j else 0) := by
    intro m
    by_cases h1 : i = m
    · rw [← h1]
      have h2 : ¬(i = k ∧ k < i) := fun h => absurd (h.1 ▸ h.2) (lt_irrefl _)
      rw [if_pos rfl, if_pos rfl, if_neg h2, one_mul, add_zero]
    · by_cases h2 : m = k ∧ k < i
      · rw [if_neg h1, if_pos h2, if_neg h1, if_pos h2, zero_add, h2.1]
      · rw [if_neg h1, if_neg h2, if_neg h1, if_neg h2, zero_mul, add_zero]
  rw [Finset.sum_congr rfl (fun m _ => hsplit m), Finset.sum_add_distrib]
  congr 1
  · simp [Finset.sum_ite_eq]
  · by_cases hk : k < i
    · simp only [hk, and_true]
      simp [Finset.sum_ite_eq']
    · simp only [hk, and_false, if_false]
      simp

theorem mul_lowerColMat_apply {n : ℕ} (M : Mat n) (k : Fin n) (f : Fin n → ℚ) :
    matMul M (lowerColMat k f) =
      fun i j => M i j
        + if j = k then ∑ m : Fin n, (if k < m then M i m * f m else 0) else 0 := by
  funext i j
  show (∑ m : Fin n, M i m * if m = j then 1 else if j = k ∧ k < m then f m else 0)
      = M i j + if j = k then ∑ m : Fin n, (if k < m then M i m * f m else 0) else 0
  have hsplit : ∀ m : Fin n,
      M i m * (if m = j then (1:ℚ) else if j = k ∧ k < m then f m else 0)
        = (if m = j then M i m else 0) + (if j = k ∧ k < m then M i m * f m else 0) := by
    intro m
    by_cases h1 : m = j
    · rw [h1]
      have h2 : ¬(j = k ∧ k < j) := fun h => absurd (h.1 ▸ h.2) (lt_irrefl _)
      rw [if_pos rfl, if_pos rfl, if_neg h2, mul_one, add_zero]
    · by_cases h2 : j = k ∧ k < m
      · rw [if_neg h1, if_pos h2, if_neg h1, if_pos h2, zero_add]
      · rw [if_neg h1, if_neg h2, if_neg h1, if_neg h2, mul_zero, add_zero]
  rw [Finset.sum_congr rfl (fun m _ => hsplit m), Finset.sum_add_distrib]
  congr 1
  · simp [Finset.sum_ite_eq']
  · by_cases hjk : j = k
    · simp [hjk]
    · simp [hjk]

theorem lowerColMat_add {n : ℕ} (k : Fin n) (f g : Fin n → ℚ) :
    matMul (lowerColMat k f) (lowerColMat k g) = lowerColMat k (fun i => f i + g i) := by
  rw [lowerColMat_mul_apply]
  funext i j
  have hrow : ∀ j' : Fin n, lowerColMat k g k j' = if k = j' then 1 else 0 := by
    intro j'
    rw [lowerColMat]
    by_cases h : k = j'
    · simp [h]
    · have : ¬(j' = k ∧ k < k) := fun hc => absurd hc.2 (lt_irrefl k)
      simp [h, this]
  rw [hrow]
  rw [lowerColMat, lowerColMat]
  by_cases h1 : i = j
  · rw [← h1]
    rw [if_pos rfl, if_pos rfl]
    by_cases hk : k < i
    · have hki : ¬k = i := fun h => absurd (h ▸ hk) (lt_irrefl _)
      rw [if_pos hk, if_neg hki, mul_zero, add_zero]
    · rw [if_neg hk, add_zero]
  · rw [if_neg h1, if_neg h1]
    by_cases h2 : j = k ∧ k < i
    · obtain ⟨rfl, hki⟩ := h2
      have hTrue : j = j ∧ j < i := ⟨rfl, hki⟩
      rw [if_pos hTrue, if_pos hTrue, if_pos hki, if_pos rfl, mul_one]
      exact add_comm _ _
    · rw [if_neg h2, if_neg h2]
      by_cases hk : k < i
      · have hkj : ¬k = j := by
          intro h
          exact h2 ⟨h.symm, hk⟩
        rw [if_pos hk, if_neg hkj, mul_zero, add_zero]
      · rw [if_neg hk, add_zero]

theorem lowerColMat_zero {n : ℕ} (k : Fin n) :
    lowerColMat k (fun _ => (0:ℚ)) = idMat n := by
  funext i j
  rw [lowerColMat, idMat]
  by_cases h1 : i = j
  · simp [h1]
  · by_cases h2 : j = k ∧ k < i <;> simp [h1, h2]

theorem swap_trans_self {n : ℕ} (p q : Fin n) :
    (Equiv.swap p q).trans (Equiv.swap p q) = Equiv.refl (Fin n) := by
  ext x
  simp

/-! ### Substitution-loop lemmas -/

theorem bsAux_stable {n : ℕ} (A : Mat n) (b : Vec n) {m m' : ℕ} (hm : m ≤ m')
    (hm' : m' ≤ n) : ∀ i : Fin n, n - m ≤ i.val → bsAux A b m' i = bsAux A b m i := by
  induction m' with
  | zero => intro i _; rw [Nat.le_zero.mp hm]
  | succ m' ih =>
    intro i hi
    rcases Nat.lt_or_ge m (m' + 1) with h' | h'
    · have hrec : m ≤ m' := by omega
      rw [bsAux]
      simp only
      rw [dif_pos (by omega : n - (m' + 1) < n)]
      rw [Function.update_noteq]
      · exact ih hrec (by omega) i hi
      · intro hcontra
        have : i.val = n - (m' + 1) := by rw [hcontra]
        omega
    · have : m = m' + 1 := by omega
      rw [this]

theorem backSubst_spec {n : ℕ} (A : Mat n) (b : Vec n) (i : Fin n) :
    backSubst A b i =
      (b i - ∑ j : Fin n, if i < j then A i j * backSubst A b j else 0) / A i i := by
  have hlt := i.isLt
  set t : ℕ := n - 1 - i.val with ht
  have hidx : n - (t + 1) = i.val := by omega
  have h1 : backSubst A b i = bsAux A b (t + 1) i := by
    rw [backSubst]
    exact bsAux_stable A b (by omega) (le_refl n) i (by omega)
  rw [h1, bsAux]
  simp only
  rw [dif_pos (by omega : n - (t + 1) < n)]
  have hieq : (⟨n - (t + 1), by omega⟩ : Fin n) = i := Fin.ext hidx
  rw [hieq, Function.update_same]
  congr 2
  refine Finset.sum_congr rfl ?_
  intro j _
  by_cases hj : i < j
  · rw [if_pos hj, if_pos hj]
    have : bsAux A b t j = backSubst A b j := by
      rw [backSubst]
      exact (bsAux_stable A b (by omega) (le_refl n) j (by omega : n - t ≤ j.val)).symm
    rw [this]
  · rw [if_neg hj, if_neg hj]

theorem fsAux_stable {n : ℕ} (L : Mat n) (Pb : Vec n) {m m' : ℕ} (hm : m ≤ m') :
    ∀ i : Fin n, i.val < m → fsAux L Pb m' i = fsAux L Pb m i := by
  induction m' with
  | zero => intro i _; rw [Nat.le_zero.mp hm]
  | succ m' ih =>
    intro i hi
    rcases Nat.lt_or_ge m (m' + 1) with h' | h'
    · rw [fsAux]
      simp only
      split
      · rw [Function.update_noteq]
        · exact ih (by omega) i hi
        · intro hcontra
          have : i.val = m' := by rw [hcontra]
          omega
      · exact ih (by omega) i hi
    · have : m = m' + 1 := by omega
      rw [this]

theorem forwardSubst_spec {n : ℕ} (L : Mat n) (Pb : Vec n) (i : Fin n) :
    forwardSubst L Pb i =
      (Pb i - ∑ j : Fin n, if j < i then L i j * forwardSubst L Pb j else 0) / L i i := by
  have hlt := i.isLt
  have h1 : forwardSubst L Pb i = fsAux L Pb (i.val + 1) i := by
    rw [forwardSubst]
    exact fsAux_stable L Pb (by omega) i (by omega)
  rw [h1, fsAux]
  simp only
  rw [dif_pos hlt]
  have hieq : (⟨i.val, hlt⟩ : Fin n) = i := Fin.ext rfl
  rw [hieq, Function.update_same]
  congr 2
  refine Finset.sum_congr rfl ?_
  intro j _
  by_cases hj : j < i
  · rw [if_pos hj, if_pos hj]
    have : fsAux L Pb i.val j = forwardSubst L Pb j := by
      rw [forwardSubst]
      exact (fsAux_stable L Pb (le_of_lt i.isLt) j hj).symm
    rw [this]
  · rw [if_neg hj, if_neg hj]

/-- When every diagonal entry of `U` has magnitude at least `EPS`, the
re-check in the backward-substitution loop never fires and the loop computes
exactly the unchecked back substitution. -/
theorem bscAux_eq_bsAux {n : ℕ} (U : Mat n) (y : Vec n)
    (hdiag : ∀ i : Fin n, EPS ≤ rabs (U i i)) :
    ∀ m : ℕ, bscAux U y m = some (bsAux U y m) := by
  intro m
  induction m with
  | zero => rfl
  | succ m ih =>
    rw [bscAux, bsAux, ih, Option.some_bind]
    simp only
    split
    · next h =>
      rw [if_neg (not_lt.mpr (hdiag ⟨n - (m + 1), h⟩))]
    · rfl

theorem backSubstChecked_eq {n : ℕ} (U : Mat n) (y : Vec n)
    (hdiag : ∀ i : Fin n, EPS ≤ rabs (U i i)) :
    backSubstChecked U y = some (backSubst U y) :=
  bscAux_eq_bsAux U y hdiag n

/-! ### Check-loop characterizations -/

theorem geBad_iff {n : ℕ} (st : GEState n) :
    geBad st = true ↔ ∃ i : Fin n, st.pr ≤ i.val ∧ EPS < rabs (st.b i) := by
  rw [geBad, List.any_eq_true]
  constructor
  · rintro ⟨a, ha, hp⟩
    obtain ⟨h1, h2⟩ := mem_range1.mp ha
    rw [dif_pos (by omega : a < n)] at hp
    exact ⟨⟨a, by omega⟩, h1, of_decide_eq_true hp⟩
  · rintro ⟨i, h1, h2⟩
    refine ⟨i.val, mem_range1.mpr ⟨h1, by have := i.isLt; omega⟩, ?_⟩
    rw [dif_pos i.isLt]
    simpa using h2

theorem gjBad_iff {n : ℕ} (st : GEState n) :
    gjBad st = true ↔
      ∃ i : Fin n, (∀ j : Fin n, rabs (st.A i j) ≤ EPS) ∧ EPS < rabs (st.b i) := by
  rw [gjBad, List.any_eq_true]
  constructor
  · rintro ⟨a, ha, hp⟩
    have han : a < n := List.mem_range.mp ha
    rw [dif_pos han, Bool.and_eq_true] at hp
    obtain ⟨hall, hb⟩ := hp
    rw [List.all_eq_true] at hall
    refine ⟨⟨a, han⟩, ?_, of_decide_eq_true hb⟩
    intro j
    have := hall j.val (List.mem_range.mpr j.isLt)
    rw [dif_pos j.isLt] at this
    simpa [not_lt] using this
  · rintro ⟨i, h1, h2⟩
    refine ⟨i.val, List.mem_range.mpr i.isLt, ?_⟩
    rw [dif_pos i.isLt, Bool.and_eq_true]
    constructor
    · rw [List.all_eq_true]
      intro j hj
      have hjn : j < n := List.mem_range.mp hj
      rw [dif_pos hjn]
      simpa [not_lt] using h1 ⟨j, hjn⟩
    · simpa using h2

/-! ### Pivot-counter lemmas -/

theorem geStep_pr {n : ℕ} (st : GEState n) (col : ℕ) :
    (geStep st col).pr = st.pr ∨ (geStep st col).pr = st.pr + 1 := by
  rw [geStep]
  split
  · dsimp only
    split
    · exact Or.inl rfl
    · exact Or.inr rfl
  · exact Or.inl rfl

theorem gjStep_pr {n : ℕ} (st : GEState n) (col : ℕ) :
    (gjStep st col).pr = st.pr ∨ (gjStep st col).pr = st.pr + 1 := by
  rw [gjStep]
  split
  · dsimp only
    split
    · exact Or.inl rfl
    · exact Or.inr rfl
  · exact Or.inl rfl

theorem geRun_pr_le {n : ℕ} (A : Mat n) (b : Vec n) (k : ℕ) :
    (geRun A b k).pr ≤ k := by
  induction k with
  | zero => exact le_refl 0
  | succ k ih =>
    rw [geRun_succ]
    rcases geStep_pr (geRun A b k) k with h | h <;> omega

theorem gjRun_pr_le {n : ℕ} (A : Mat n) (b : Vec n) (k : ℕ) :
    (gjRun A b k).pr ≤ k := by
  induction k with
  | zero => exact le_refl 0
  | succ k ih =>
    rw [gjRun_succ]
    rcases gjStep_pr (gjRun A b k) k with h | h <;> omega

/-- If the final pivot count is full, every prefix of the run had a full
pivot count (the counter rises by at most one per column). -/
theorem geRun_pr_all_of_final {n : ℕ} (A : Mat n) (b : Vec n)
    (hfin : (geRun A b n).pr = n) : ∀ k ≤ n, (geRun A b k).pr = k := by
  have H : ∀ d k, k ≤ n → n - k = d → (geRun A b k).pr = k := by
    intro d
    induction d with
    | zero =>
      intro k hk hd
      have : k = n := by omega
      rw [this, hfin]
    | succ d ih =>
      intro k hk hd
      have := ih (k + 1) (by omega) (by omega)
      have h1 := geRun_pr_le A b k
      rw [geRun_succ] at this
      rcases geStep_pr (geRun A b k) k with h | h <;> omega
  exact fun k hk => H (n - k) k hk rfl

theorem gjRun_pr_all_of_final {n : ℕ} (A : Mat n) (b : Vec n)
    (hfin : (gjRun A b n).pr = n) : ∀ k ≤ n, (gjRun A b k).pr = k := by
  have H : ∀ d k, k ≤ n → n - k = d → (gjRun A b k).pr = k := by
    intro d
    induction d with
    | zero =>
      intro k hk hd
      have : k = n := by omega
      rw [this, hfin]
    | succ d ih =>
      intro k hk hd
      have := ih (k + 1) (by omega) (by omega)
      have h1 := gjRun_pr_le A b k
      rw [gjRun_succ] at this
      rcases gjStep_pr (gjRun A b k) k with h | h <;> omega
  exact fun k hk => H (n - k) k hk rfl

/-- Once a column is skipped, the pivot counter can no longer reach `n`:
it gains at most one per remaining column. -/
theorem geRun_pr_growth {n : ℕ} (A : Mat n) (b : Vec n) {k k' : ℕ} (hk : k ≤ k') :
    (geRun A b k').pr ≤ (geRun A b k).pr + (k' - k) := by
  induction k' with
  | zero =>
    have : k = 0 := by omega
    rw [this]
    omega
  | succ k' ih =>
    rcases Nat.lt_or_ge k (k' + 1) with h' | h'
    · have := ih (by omega)
      rw [geRun_succ]
      rcases geStep_pr (geRun A b k') k' with h | h <;> omega
    · have : k = k' + 1 := by omega
      rw [this]
      omega

/-- When the pivot counter is full, the inconsistency scan is empty and
reports consistency. -/
theorem geBad_false_of_full {n : ℕ} (st : GEState n) (h : n ≤ st.pr) :
    geBad st = false := by
  rw [geBad]
  have : n - st.pr = 0 := by omega
  rw [this]
  rfl

/-- With a full pivot count, `solveGaussElimination` reports Unique with
the back-substitution solution. -/
theorem solveGE_of_full {n : ℕ} (A : Mat n) (b : Vec n) (h : (geRun A b n).pr = n) :
    solveGaussElimination A b =
      { status := .unique,
        solution := some (backSubst (geRun A b n).A (geRun A b n).b) } := by
  rw [solveGaussElimination]
  show (if geBad (geForward A b) = true then _ else _) = _
  rw [geForward, geBad_false_of_full _ (le_of_eq h.symm)]
  simp only [Bool.false_eq_true, if_false, h, lt_irrefl, if_neg (lt_irrefl n)]

/-- With a deficient pivot count, `solveGaussElimination` reports Infinite
or None; in either case there is no solution and no `L`, `U`, `P`. -/
theorem solveGE_of_deficient {n : ℕ} (A : Mat n) (b : Vec n) (h : (geRun A b n).pr < n) :
    (solveGaussElimination A b = { status := .none } ∨
      solveGaussElimination A b = { status := .infinite }) := by
  rw [solveGaussElimination]
  show (if geBad (geForward A b) = true then _ else _) = _ ∨ _
  by_cases hbad : geBad (geForward A b) = true
  · left
    rw [if_pos hbad]
  · right
    rw [if_neg hbad, geForward, if_pos h]

/-! ### The LU decomposition invariant -/

theorem luSwapPhase_inv {n : ℕ} (A : Mat n) (b : Vec n) {k : ℕ} {st : LUState n}
    (h : k < n) (inv : LUInvariant A b k st) :
    LUInvariant A b k (luSwapPhase st k h) := by
  rw [luSwapPhase]
  set kF : Fin n := ⟨k, h⟩ with hkF
  set m := selectPivot st.U kF kF with hm
  by_cases hmk : m = kF
  · rw [if_pos hmk]
    exact inv
  · rw [if_neg hmk]
    have hkm : kF < m := lt_of_le_of_ne (selectPivot_le st.U kF kF) (Ne.symm hmk)
    have hkFv : kF.val = k := rfl
    have hmv : k ≤ m.val := hkm.le
    have hSapp : ∀ x : Fin n, Equiv.swap kF m x = if x = kF then m else if x = m then kF else x :=
      fun x => Equiv.swap_apply_def kF m x
    refine ⟨?_, ?_, ?_, ?_, ?_, ?_, ?_⟩
    · -- lowerL
      intro i j hij
      dsimp only
      by_cases hjk : j.val < k
      · rw [if_pos hjk]
        have hikF : ¬i = kF := by
          intro hcontra
          rw [hcontra, Fin.lt_def] at hij
          omega
        have him : ¬i = m := by
          intro hcontra
          rw [hcontra, Fin.lt_def] at hij
          omega
        rw [if_neg hikF, if_neg him]
        exact inv.lowerL i j hij
      · rw [if_neg hjk]
        exact inv.lowerL i j hij
    · -- diagL
      intro i
      dsimp only
      by_cases hik : i.val < k
      · have h1 : ¬i = kF := by
          intro hc; rw [hc] at hik; exact absurd hik (lt_irrefl k)
        have h2 : ¬i = m := by
          intro hc; rw [hc] at hik; omega
        rw [if_pos hik, if_neg h1, if_neg h2]
        exact inv.diagL i
      · rw [if_neg hik]
        exact inv.diagL i
    · -- freshL
      intro i j hj hij
      dsimp only
      rw [if_neg (by omega : ¬j.val < k)]
      exact inv.freshL i j hj hij
    · -- perm
      obtain ⟨σ, hP, hPb⟩ := inv.perm
      refine ⟨(Equiv.swap kF m).trans σ, ?_, ?_⟩
      · intro i j
        show swapRow st.P kF m i j = _
        rw [swapRow_perm]
        show st.P (Equiv.swap kF m i) j = _
        rw [hP]
        rfl
      · intro i
        show swapVec st.Pb kF m i = _
        rw [swapVec_perm]
        show st.Pb (Equiv.swap kF m i) = _
        rw [hPb]
        rfl
    · -- lowerU
      intro i j hji hjk
      show swapRow st.U kF m i j = 0
      rw [swapRow]
      by_cases h1 : i = kF
      · rw [if_pos h1]
        refine inv.lowerU m j ?_ hjk
        rw [Fin.lt_def]
        omega
      · rw [if_neg h1]
        by_cases h2 : i = m
        · rw [if_pos h2]
          refine inv.lowerU kF j ?_ hjk
          rw [Fin.lt_def]
          omega
        · rw [if_neg h2]
          exact inv.lowerU i j hji hjk
    · -- pivots
      intro j hjk
      show EPS ≤ rabs (swapRow st.U kF m j j)
      rw [swapRow]
      have h1 : ¬j = kF := by intro hc; rw [hc] at hjk; exact absurd hjk (lt_irrefl k)
      have h2 : ¬j = m := by intro hc; rw [hc] at hjk; omega
      rw [if_neg h1, if_neg h2]
      exact inv.pivots j hjk
    · -- factor
      have hent : ∀ x y : Fin n, k ≤ y.val → st.L x y = if x = y then 1 else 0 := by
        intro x y hy
        by_cases hxy : x = y
        · rw [if_pos hxy, hxy]
          exact inv.diagL y
        · rw [if_neg hxy]
          exact inv.freshL x y hy hxy
      have hSval : ∀ y : Fin n, k ≤ y.val → k ≤ (Equiv.swap kF m y).val := by
        intro y hy
        rw [hSapp y]
        by_cases e1 : y = kF
        · rw [if_pos e1]
          exact hmv
        · rw [if_neg e1]
          by_cases e2 : y = m
          · rw [if_pos e2]
          · rw [if_neg e2]
            exact hy
      have hPS : swapRow st.P kF m = matMul (permMat (Equiv.swap kF m)) st.P := by
        rw [permMat_mul_left, swapRow_perm]
      have hUS : swapRow st.U kF m = matMul (permMat (Equiv.swap kF m)) st.U := by
        rw [permMat_mul_left, swapRow_perm]
      have hLS : (fun i j =>
          if j.val < k then
            if i = kF then st.L m j else if i = m then st.L kF j else st.L i j
          else st.L i j)
          = matMul (matMul (permMat (Equiv.swap kF m)) st.L) (permMat (Equiv.swap kF m)) := by
        rw [matMul_permMat_right, permMat_mul_left, Equiv.symm_swap]
        funext i j
        dsimp only
        by_cases hjk : j.val < k
        · rw [if_pos hjk]
          have hSj : Equiv.swap kF m j = j := by
            rw [hSapp j, if_neg (by intro hc; rw [hc] at hjk; exact absurd hjk (lt_irrefl k)),
              if_neg (by intro hc; rw [hc] at hjk; omega)]
          rw [hSj, hSapp i]
          by_cases h1 : i = kF
          · rw [if_pos h1, if_pos h1]
          · rw [if_neg h1, if_neg h1]
            by_cases h2 : i = m
            · rw [if_pos h2, if_pos h2]
            · rw [if_neg h2, if_neg h2]
        · rw [if_neg hjk]
          have hjge : k ≤ j.val := by omega
          rw [hent i j hjge, hent (Equiv.swap kF m i) (Equiv.swap kF m j) (hSval j hjge)]
          by_cases hij : i = j
          · rw [if_pos hij, if_pos (by rw [hij])]
          · rw [if_neg hij, if_neg (fun hc => hij ((Equiv.swap kF m).injective hc))]
      show matMul (swapRow st.P kF m) A = matMul _ (swapRow st.U kF m)
      rw [hPS, hUS, hLS]
      rw [matMul_assoc (matMul (permMat (Equiv.swap kF m)) st.L) (permMat (Equiv.swap kF m))
          (matMul (permMat (Equiv.swap kF m)) st.U),
        ← matMul_assoc (permMat (Equiv.swap kF m)) (permMat (Equiv.swap kF m)) st.U,
        permMat_trans, swap_trans_self, permMat_refl, matMul_idMat_left,
        matMul_assoc (permMat (Equiv.swap kF m)) st.L st.U,
        ← inv.factor, ← matMul_assoc (permMat (Equiv.swap kF m)) st.P A,
        matMul_assoc (permMat (Equiv.swap kF m)) st.P A,
        ← matMul_assoc (permMat (Equiv.swap kF m)) st.P A]

theorem luStep_inv {n : ℕ} (A : Mat n) (b : Vec n) {k : ℕ} {st st' : LUState n}
    (hk : k < n) (inv : LUInvariant A b k st) (hstep : luStep st k = some st') :
    LUInvariant A b (k + 1) st' := by
  rw [luStep, dif_pos hk] at hstep
  have inv1 := luSwapPhase_inv A b hk inv
  set kF : Fin n := ⟨k, hk⟩ with hkF
  set st1 := luSwapPhase st k hk with hst1
  by_cases hpiv : rabs (st1.U kF kF) < EPS
  · rw [if_pos hpiv] at hstep
    exact absurd hstep (by simp)
  · rw [if_neg hpiv] at hstep
    have hEps : EPS ≤ rabs (st1.U kF kF) := not_lt.mp hpiv
    have hUkk : st1.U kF kF ≠ 0 := ne_zero_of_EPS_le hEps
    obtain rfl : _ = st' := Option.some_inj.mp hstep
    set f : Fin n → ℚ := fun i => st1.U i kF / st1.U kF kF with hf
    refine ⟨?_, ?_, ?_, ?_, ?_, ?_, ?_⟩
    · -- lowerL
      intro i j hij
      dsimp only
      have : ¬(kF < i ∧ j = kF) := by
        rintro ⟨h1, rfl⟩
        exact absurd (lt_trans h1 hij) (lt_irrefl _)
      rw [if_neg this]
      exact inv1.lowerL i j hij
    · -- diagL
      intro i
      dsimp only
      have : ¬(kF < i ∧ i = kF) := by
        rintro ⟨h1, rfl⟩
        exact absurd h1 (lt_irrefl _)
      rw [if_neg this]
      exact inv1.diagL i
    · -- freshL
      intro i j hj hij
      dsimp only
      have hjk : ¬j = kF := by
        intro hc
        rw [hc] at hj
        simp only [hkF] at hj
        omega
      rw [if_neg (fun hc => hjk hc.2)]
      exact inv1.freshL i j (by omega) hij
    · -- perm
      exact inv1.perm
    · -- lowerU
      intro i j hji hjk1
      dsimp only
      rcases Nat.lt_or_ge j.val k with hjk | hjk
      · by_cases hi : kF < i
        · rw [if_pos hi]
          have h1 : ¬j = kF := by
            intro hc
            rw [hc] at hjk
            exact absurd hjk (lt_irrefl k)
          have h2 : ¬kF < j := by
            rw [Fin.lt_def]
            simp only [hkF]
            omega
          rw [if_neg h1, if_neg h2]
          exact inv1.lowerU i j hji hjk
        · rw [if_neg hi]
          exact inv1.lowerU i j hji hjk
      · have hjeq : j = kF := by
          apply Fin.ext
          simp only [hkF]
          omega
        have hi : kF < i := hjeq ▸ hji
        rw [if_pos hi, if_pos hjeq]
    · -- pivots
      intro j hjk1
      dsimp only
      rcases Nat.lt_or_ge j.val k with hjk | hjk
      · have h2 : ¬kF < j := by
          rw [Fin.lt_def]
          simp only [hkF]
          omega
        rw [if_neg h2]
        exact inv1.pivots j hjk
      · have hjeq : j = kF := by
          apply Fin.ext
          simp only [hkF]
          omega
        rw [hjeq, if_neg (lt_irrefl kF)]
        exact hEps
    · -- factor
      have hU'alg : (fun i j =>
          if kF < i then
            if j = kF then 0
            else if kF < j then st1.U i j - st1.U i kF / st1.U kF kF * st1.U kF j
            else st1.U i j
          else st1.U i j)
          = matMul (lowerColMat kF (fun i => -(f i))) st1.U := by
        rw [lowerColMat_mul_apply]
        funext i j
        by_cases hi : kF < i
        · rw [if_pos hi, if_pos hi]
          by_cases hj : j = kF
          · rw [if_pos hj, hj]
            have hcan : st1.U i kF / st1.U kF kF * st1.U kF kF = st1.U i kF :=
              div_mul_cancel₀ _ hUkk
            rw [hf]
            dsimp only
            rw [neg_mul, hcan]
            ring
          · rw [if_neg hj]
            by_cases hj2 : kF < j
            · rw [if_pos hj2, hf]
              dsimp only
              ring
            · rw [if_neg hj2]
              have hjlt : j < kF := lt_of_le_of_ne (not_lt.mp hj2) hj
              have : st1.U kF j = 0 := by
                refine inv1.lowerU kF j hjlt ?_
                rw [Fin.lt_def] at hjlt
                simp only [hkF] at hjlt
                omega
              rw [this]
              ring
        · rw [if_neg hi, if_neg hi, add_zero]
      have hL'alg : (fun i j =>
          if kF < i ∧ j = kF then st1.U i kF / st1.U kF kF else st1.L i j)
          = matMul st1.L (lowerColMat kF f) := by
        rw [mul_lowerColMat_apply]
        funext i j
        by_cases hj : j = kF
        · have hsum : (∑ m : Fin n, if kF < m then st1.L i m * f m else 0)
              = if kF < i then f i else 0 := by
            have hterm : ∀ m : Fin n, (if kF < m then st1.L i m * f m else 0)
                = if m = i then (if kF < i then f i else 0) else 0 := by
              intro m
              by_cases hmi : m = i
              · rw [hmi, if_pos rfl]
                by_cases hki : kF < i
                · rw [if_pos hki, if_pos hki, inv1.diagL i, one_mul]
                · rw [if_neg hki, if_neg hki]
              · rw [if_neg hmi]
                by_cases hkm : kF < m
                · rw [if_pos hkm]
                  have : st1.L i m = 0 := by
                    refine inv1.freshL i m ?_ (fun hc => hmi hc.symm)
                    rw [Fin.lt_def] at hkm
                    simp only [hkF] at hkm
                    omega
                  rw [this, zero_mul]
                · rw [if_neg hkm]
            rw [Finset.sum_congr rfl (fun m _ => hterm m)]
            simp [Finset.sum_ite_eq']
          rw [if_pos hj, hsum]
          by_cases hi : kF < i
          · rw [if_pos ⟨hi, hj⟩, if_pos hi, hj]
            have : st1.L i kF = 0 :=
              inv1.freshL i kF (le_refl k) (fun hc => absurd (hc ▸ hi) (lt_irrefl _))
            rw [this, zero_add, hf]
          · rw [if_neg (fun hc => hi (And.left hc)), if_neg hi, add_zero]
        · rw [if_neg hj, if_neg (fun hc => hj (And.right hc)), add_zero]
      show matMul st1.P A = _
      rw [hU'alg, hL'alg]
      rw [matMul_assoc st1.L (lowerColMat kF f) (matMul (lowerColMat kF (fun i => -(f i))) st1.U),
        ← matMul_assoc (lowerColMat kF f) (lowerColMat kF (fun i => -(f i))) st1.U,
        lowerColMat_add,
        show (fun i => f i + -(f i)) = fun _ => (0:ℚ) from funext fun i => by ring,
        lowerColMat_zero, matMul_idMat_left]
      exact inv1.factor

theorem luInit_inv {n : ℕ} (A : Mat n) (b : Vec n) :
    LUInvariant A b 0 (luInit A b) := by
  refine ⟨?_, ?_, ?_, ?_, ?_, ?_, ?_⟩
  · intro i j hij
    show idMat n i j = 0
    rw [idMat, if_neg (ne_of_lt hij)]
  · intro i
    show idMat n i i = 1
    rw [idMat, if_pos rfl]
  · intro i j _ hij
    show idMat n i j = 0
    rw [idMat, if_neg hij]
  · exact ⟨Equiv.refl (Fin n), fun i j => rfl, fun i => rfl⟩
  · intro i j _ hjk
    exact absurd hjk (Nat.not_lt_zero _)
  · intro j hjk
    exact absurd hjk (Nat.not_lt_zero _)
  · rfl

theorem luRun_inv {n : ℕ} (A : Mat n) (b : Vec n) :
    ∀ k, k ≤ n → ∀ st, luRun A b k = some st → LUInvariant A b k st := by
  intro k
  induction k with
  | zero =>
    intro _ st hst
    rw [luRun] at hst
    simp only [List.range_zero, List.foldl_nil, Option.some_inj] at hst
    rw [← hst]
    exact luInit_inv A b
  | succ k ih =>
    intro hk st' hst'
    rw [luRun_succ] at hst'
    obtain ⟨st, hrun, hstep⟩ := Option.bind_eq_some.mp hst'
    exact luStep_inv A b (by omega) (ih (by omega) st hrun) hstep

/-- When the decomposition completes, `solveLUFactorization` takes its own
LU path: the back-substitution re-check never delegates, and the result is
Unique with the solution and all three factor matrices. -/
theorem solveLU_of_some {n : ℕ} (A : Mat n) (b : Vec n) {st : LUState n}
    (h : luRun A b n = some st) :
    solveLUFactorization A b =
      { status := .unique,
        solution := some (backSubst st.U (forwardSubst st.L st.Pb)),
        L := some st.L, U := some st.U, P := some st.P } := by
  have inv := luRun_inv A b n (le_refl n) st h
  rw [solveLUFactorization, h]
  dsimp only
  rw [backSubstChecked_eq st.U (forwardSubst st.L st.Pb) (fun i => inv.pivots i i.isLt)]

/-- When the decomposition delegates, `solveLUFactorization` returns the
Gaussian-elimination result verbatim. -/
theorem solveLU_of_none {n : ℕ} (A : Mat n) (b : Vec n)
    (h : luRun A b n = Option.none) :
    solveLUFactorization A b = solveGaussElimination A b := by
  rw [solveLUFactorization, h]

/-- Forward substitution solves `L·y = Pb` when `L` is unit
lower-triangular. -/
theorem mulVec_forwardSubst {n : ℕ} (L : Mat n) (Pb : Vec n)
    (hdiag : ∀ i : Fin n, L i i = 1) (hupper : ∀ i j : Fin n, i < j → L i j = 0) :
    mulVec L (forwardSubst L Pb) = Pb := by
  funext i
  set y := forwardSubst L Pb with hy
  show (∑ j : Fin n, L i j * y j) = Pb i
  have hterm : ∀ j : Fin n, L i j * y j
      = (if j < i then L i j * y j else 0) + (if j = i then y j else 0) := by
    intro j
    rcases lt_trichotomy j i with h | h | h
    · rw [if_pos h, if_neg (ne_of_lt h), add_zero]
    · rw [if_neg (h ▸ lt_irrefl i), if_pos h, h, hdiag i, one_mul, zero_add]
    · rw [if_neg (not_lt.mpr (le_of_lt h)), if_neg (ne_of_gt h), hupper i j h, zero_mul,
        add_zero]
  rw [Finset.sum_congr rfl (fun j _ => hterm j), Finset.sum_add_distrib]
  have h2 : (∑ j : Fin n, if j = i then y j else 0) = y i := by
    simp [Finset.sum_ite_eq']
  rw [h2]
  have hspec := forwardSubst_spec L Pb i
  rw [hdiag i, div_one] at hspec
  rw [← hy] at hspec
  rw [hspec]
  ring

/-- Back substitution solves `U·x = y` when `U` is upper-triangular with
nonzero diagonal. -/
theorem mulVec_backSubst {n : ℕ} (U : Mat n) (y : Vec n)
    (hdiag : ∀ i : Fin n, U i i ≠ 0) (hlower : ∀ i j : Fin n, j < i → U i j = 0) :
    mulVec U (backSubst U y) = y := by
  funext i
  set x := backSubst U y with hx
  show (∑ j : Fin n, U i j * x j) = y i
  have hterm : ∀ j : Fin n, U i j * x j
      = (if i < j then U i j * x j else 0) + (if j = i then U i i * x i else 0) := by
    intro j
    rcases lt_trichotomy j i with h | h | h
    · rw [if_neg (not_lt.mpr (le_of_lt h)), if_neg (ne_of_lt h), hlower i j h, zero_mul,
        zero_add]
    · rw [if_neg (h ▸ lt_irrefl i), if_pos h, h, zero_add]
    · rw [if_pos h, if_neg (ne_of_gt h), add_zero]
  rw [Finset.sum_congr rfl (fun j _ => hterm j), Finset.sum_add_distrib]
  have h2 : (∑ j : Fin n, if j = i then U i i * x i else 0) = U i i * x i := by
    simp [Finset.sum_ite_eq']
  rw [h2]
  have hspec := backSubst_spec U y i
  rw [← hx] at hspec
  have : U i i * x i = y i - ∑ j : Fin n, if i < j then U i j * x j else 0 := by
    rw [hspec, mul_comm, div_mul_cancel₀ _ (hdiag i)]
  rw [this]
  ring

/-- The solution computed by the LU path solves the original system
exactly. -/
theorem lu_solution_solves {n : ℕ} (A : Mat n) (b : Vec n) {st : LUState n}
    (h : luRun A b n = some st) :
    mulVec A (backSubst st.U (forwardSubst st.L st.Pb)) = b := by
  have inv := luRun_inv A b n (le_refl n) st h
  obtain ⟨σ, hP, hPb⟩ := inv.perm
  set y := forwardSubst st.L st.Pb with hy
  set x := backSubst st.U y with hx
  have hUx : mulVec st.U x = y :=
    mulVec_backSubst st.U y
      (fun i => ne_zero_of_EPS_le (inv.pivots i i.isLt))
      (fun i j hji => inv.lowerU i j hji (lt_of_lt_of_le (Fin.lt_def.mp hji) i.isLt.le))
  have hLy : mulVec st.L y = st.Pb :=
    mulVec_forwardSubst st.L st.Pb inv.diagL inv.lowerL
  have hPmat : st.P = permMat σ := by
    funext i j
    rw [hP i j]
    rfl
  have hchain : mulVec st.P (mulVec A x) = st.Pb := by
    rw [← mulVec_matMul, inv.factor, mulVec_matMul, hUx, hLy]
  have hperm : ∀ i : Fin n, mulVec A x (σ i) = b (σ i) := by
    intro i
    have hc := congrFun hchain i
    simp only [hPmat, permMat_mulVec] at hc
    rw [hPb i] at hc
    exact hc
  funext j
  have := hperm (σ.symm j)
  rw [Equiv.apply_symm_apply] at this
  exact this

/-! ### Lockstep of Gaussian elimination and the LU decomposition -/

theorem luSwapPhase_U {n : ℕ} (st : LUState n) (k : ℕ) (hk : k < n) :
    (luSwapPhase st k hk).U = swapRow st.U ⟨k, hk⟩ (selectPivot st.U ⟨k, hk⟩ ⟨k, hk⟩) := by
  rw [luSwapPhase]
  set kF : Fin n := ⟨k, hk⟩
  set m := selectPivot st.U kF kF with hm
  by_cases hmk : m = kF
  · rw [if_pos hmk, hmk]
    funext i j
    rw [swapRow]
    by_cases h1 : i = kF
    · rw [if_pos h1, h1]
    · rw [if_neg h1, if_neg h1]
  · rw [if_neg hmk]

theorem luSwapPhase_pivot {n : ℕ} (st : LUState n) (k : ℕ) (hk : k < n) :
    (luSwapPhase st k hk).U ⟨k, hk⟩ ⟨k, hk⟩
      = st.U (selectPivot st.U ⟨k, hk⟩ ⟨k, hk⟩) ⟨k, hk⟩ := by
  rw [luSwapPhase_U, swapRow, if_pos rfl]

theorem luStep_none_iff {n : ℕ} (st : LUState n) (k : ℕ) (hk : k < n) :
    luStep st k = Option.none ↔
      rabs ((luSwapPhase st k hk).U ⟨k, hk⟩ ⟨k, hk⟩) < EPS := by
  rw [luStep, dif_pos hk]
  by_cases hpiv : rabs ((luSwapPhase st k hk).U ⟨k, hk⟩ ⟨k, hk⟩) < EPS
  · rw [if_pos hpiv]
    simp [hpiv]
  · rw [if_neg hpiv]
    simp [hpiv]

/-- One synchronized stage: if the LU step at stage `k` succeeds, the
Gaussian-elimination step at column `k` places a pivot (no skip) and the
working matrices still agree on all rows from `k+1` down. -/
theorem sync_step {n k : ℕ} (hk : k < n) (ge : GEState n) (lu st' : LUState n)
    (hpr : ge.pr = k)
    (hrows : ∀ i : Fin n, ge.A i = lu.U i)
    (hstep : luStep lu k = some st') :
    (geStep ge k).pr = k + 1 ∧
      ∀ i : Fin n, (geStep ge k).A i = st'.U i := by
  set kF : Fin n := ⟨k, hk⟩ with hkF
  set mL := selectPivot lu.U kF kF with hmL
  have hkmL : kF ≤ mL := hmL ▸ selectPivot_le lu.U kF kF
  have hsel : selectPivot ge.A kF kF = mL := by
    rw [hmL]
    exact selectPivot_congr ge.A lu.U kF kF (fun i _ => congrFun (hrows i) kF)
  -- analyze the LU step
  rw [luStep, dif_pos hk] at hstep
  by_cases hpiv : rabs ((luSwapPhase lu k hk).U kF kF) < EPS
  · rw [if_pos hpiv] at hstep
    exact absurd hstep (by simp)
  rw [if_neg hpiv] at hstep
  obtain rfl : _ = st' := Option.some_inj.mp hstep
  have hU1 : (luSwapPhase lu k hk).U = swapRow lu.U kF mL := luSwapPhase_U lu k hk
  have hgeval : ge.A mL kF = lu.U mL kF := congrFun (hrows mL) kF
  have hpivval : (luSwapPhase lu k hk).U kF kF = lu.U mL kF := luSwapPhase_pivot lu k hk
  have hpivge : ¬rabs (ge.A mL kF) < EPS := by
    rw [hgeval, ← hpivval]
    exact hpiv
  -- analyze the GE step
  have hcond : k < n ∧ ge.pr < n := ⟨hk, by omega⟩
  rw [geStep, dif_pos hcond]
  have hpF : (⟨ge.pr, hcond.2⟩ : Fin n) = kF := Fin.ext hpr
  simp only [hpF]
  rw [hsel, if_neg hpivge]
  refine ⟨by rw [hpr], ?_⟩
  intro i
  have hA1 : ∀ r : Fin n, ∀ j : Fin n,
      swapRow ge.A kF mL r j = swapRow lu.U kF mL r j := by
    intro r j
    rw [swapRow, swapRow]
    by_cases h1 : r = kF
    · rw [if_pos h1, if_pos h1, hrows mL]
    · rw [if_neg h1, if_neg h1]
      by_cases h2 : r = mL
      · rw [if_pos h2, if_pos h2, hrows kF]
      · rw [if_neg h2, if_neg h2, hrows r]
  funext j
  dsimp only
  by_cases hki : kF < i
  · rw [if_pos hki, if_pos hki, hU1]
    have e1 := hA1 i j
    have e2 := hA1 i kF
    have e3 := hA1 kF kF
    have e4 := hA1 kF j
    by_cases hj : j = kF
    · rw [if_pos hj, if_pos hj]
    · rw [if_neg hj, if_neg hj]
      by_cases hj2 : kF < j
      · rw [if_pos hj2, if_pos hj2, e1, e2, e3, e4]
      · rw [if_neg hj2, if_neg hj2, e1]
  · rw [if_neg hki, if_neg hki, hU1]
    exact hA1 i j

/-- One synchronized stage, delegation case: if the LU step at stage `k`
delegates, the Gaussian-elimination step at column `k` skips the column. -/
theorem sync_step_none {n k : ℕ} (hk : k < n) (ge : GEState n) (lu : LUState n)
    (hpr : ge.pr = k)
    (hrows : ∀ i : Fin n, ge.A i = lu.U i)
    (hstep : luStep lu k = Option.none) :
    geStep ge k = ge := by
  set kF : Fin n := ⟨k, hk⟩ with hkF
  set mL := selectPivot lu.U kF kF with hmL
  have hkmL : kF ≤ mL := hmL ▸ selectPivot_le lu.U kF kF
  have hsel : selectPivot ge.A kF kF = mL := by
    rw [hmL]
    exact selectPivot_congr ge.A lu.U kF kF (fun i _ => congrFun (hrows i) kF)
  have hpiv : rabs ((luSwapPhase lu k hk).U kF kF) < EPS :=
    (luStep_none_iff lu k hk).mp hstep
  have hgeval : ge.A mL kF = lu.U mL kF := congrFun (hrows mL) kF
  have hpivval : (luSwapPhase lu k hk).U kF kF = lu.U mL kF := luSwapPhase_pivot lu k hk
  have hpivge : rabs (ge.A mL kF) < EPS := by
    rw [hgeval, ← hpivval]
    exact hpiv
  have hcond : k < n ∧ ge.pr < n := ⟨hk, by omega⟩
  rw [geStep, dif_pos hcond]
  have hpF : (⟨ge.pr, hcond.2⟩ : Fin n) = kF := Fin.ext hpr
  simp only [hpF]
  rw [hsel, if_pos hpivge]

/-- The run-level lockstep: as long as the LU decomposition has not
delegated, Gaussian elimination has pivoted every column and its working
matrix agrees with `U` on all remaining rows. -/
theorem ge_lu_sync {n : ℕ} (A : Mat n) (b : Vec n) :
    ∀ k, k ≤ n → ∀ st : LUState n, luRun A b k = some st →
      (geRun A b k).pr = k ∧
        ∀ i : Fin n, (geRun A b k).A i = st.U i := by
  intro k
  induction k with
  | zero =>
    intro _ st hst
    rw [luRun] at hst
    simp only [List.range_zero, List.foldl_nil, Option.some_inj] at hst
    rw [← hst]
    exact ⟨rfl, fun i => rfl⟩
  | succ k ih =>
    intro hk st' hst'
    rw [luRun_succ] at hst'
    obtain ⟨st, hrun, hstep⟩ := Option.bind_eq_some.mp hst'
    obtain ⟨hpr, hrows⟩ := ih (by omega) st hrun
    obtain ⟨hpr', hrows'⟩ := sync_step (by omega) (geRun A b k) st st' hpr hrows hstep
    rw [geRun_succ]
    exact ⟨hpr', hrows'⟩

/-- If the LU decomposition delegates at some stage, some stage was the
first to do so. -/
theorem luRun_first_none {n : ℕ} (A : Mat n) (b : Vec n) :
    ∀ j, luRun A b j = Option.none →
      ∃ k < j, ∃ st : LUState n, luRun A b k = some st ∧ luStep st k = Option.none := by
  intro j
  induction j with
  | zero =>
    intro hj
    rw [luRun] at hj
    simp at hj
  | succ j ih =>
    intro hj
    rw [luRun_succ] at hj
    cases hcase : luRun A b j with
    | none =>
      obtain ⟨k, hk, st, h1, h2⟩ := ih hcase
      exact ⟨k, by omega, st, h1, h2⟩
    | some st =>
      rw [hcase, Option.some_bind] at hj
      exact ⟨j, by omega, st, hcase, hj⟩

/-- If the LU decomposition delegates, Gaussian elimination on the same
input skips a column, so its final pivot count falls short of `n`. -/
theorem ge_pr_lt_of_lu_none {n : ℕ} (A : Mat n) (b : Vec n)
    (h : luRun A b n = Option.none) : (geRun A b n).pr < n := by
  obtain ⟨k, hk, st, hrun, hstep⟩ := luRun_first_none A b n h
  obtain ⟨hpr, hrows⟩ := ge_lu_sync A b k (by omega) st hrun
  have hskip : geStep (geRun A b k) k = geRun A b k :=
    sync_step_none hk (geRun A b k) st hpr hrows hstep
  have hk1 : (geRun A b (k + 1)).pr = k := by
    rw [geRun_succ, hskip, hpr]
  have := geRun_pr_growth A b (show k + 1 ≤ n by omega)
  omega


/-! ### Row operations preserve the solution set -/

theorem mulVec_swapRow {n : ℕ} (M : Mat n) (x : Vec n) (p q : Fin n) :
    mulVec (swapRow M p q) x = swapVec (mulVec M x) p q := by
  funext i
  show (∑ j : Fin n, swapRow M p q i j * x j) = swapVec (mulVec M x) p q i
  rw [swapVec]
  by_cases h1 : i = p
  · rw [if_pos h1]
    have hr : ∀ j : Fin n, swapRow M p q i j = M q j := fun j => by
      rw [swapRow, if_pos h1]
    exact Finset.sum_congr rfl (fun j _ => by rw [hr j])
  · rw [if_neg h1]
    by_cases h2 : i = q
    · rw [if_pos h2]
      have hr : ∀ j : Fin n, swapRow M p q i j = M p j := fun j => by
        rw [swapRow, if_neg h1, if_pos h2]
      exact Finset.sum_congr rfl (fun j _ => by rw [hr j])
    · rw [if_neg h2]
      have hr : ∀ j : Fin n, swapRow M p q i j = M i j := fun j => by
        rw [swapRow, if_neg h1, if_neg h2]
      exact Finset.sum_congr rfl (fun j _ => by rw [hr j])

theorem swapVec_invol {n : ℕ} (v : Vec n) (p q : Fin n) :
    swapVec (swapVec v p q) p q = v := by
  funext i
  rw [swapVec]
  by_cases h1 : i = p
  · rw [if_pos h1, swapVec]
    by_cases h2 : q = p
    · rw [if_pos h2, h1, h2]
    · rw [if_neg h2, if_pos rfl, h1]
  · rw [if_neg h1]
    by_cases h2 : i = q
    · rw [if_pos h2, swapVec, if_pos rfl, h2]
    · rw [if_neg h2, swapVec, if_neg h1, if_neg h2]

theorem solset_swap {n : ℕ} (M : Mat n) (bb : Vec n) (p q : Fin n) (x : Vec n) :
    (mulVec (swapRow M p q) x = swapVec bb p q) ↔ mulVec M x = bb := by
  rw [mulVec_swapRow]
  constructor
  · intro h
    have := congrArg (fun v => swapVec v p q) h
    simpa [swapVec_invol] using this
  · intro h
    rw [h]

theorem solset_elim {n : ℕ} (M : Mat n) (bb : Vec n) (p : Fin n) (g : Fin n → ℚ)
    (hgp : g p = 0) (M2 : Mat n) (b2 : Vec n)
    (hM2 : ∀ i j : Fin n, M2 i j = M i j - g i * M p j)
    (hb2 : ∀ i : Fin n, b2 i = bb i - g i * bb p) (x : Vec n) :
    mulVec M2 x = b2 ↔ mulVec M x = bb := by
  have hmv : ∀ i : Fin n, mulVec M2 x i = mulVec M x i - g i * mulVec M x p := by
    intro i
    show (∑ j : Fin n, M2 i j * x j) = (∑ j : Fin n, M i j * x j) - g i * ∑ j : Fin n, M p j * x j
    rw [Finset.mul_sum, ← Finset.sum_sub_distrib]
    refine Finset.sum_congr rfl (fun j _ => ?_)
    rw [hM2 i j]
    ring
  constructor
  · intro h
    have hp : mulVec M x p = bb p := by
      have hcp := congrFun h p
      rw [hmv p, hgp, hb2 p, hgp] at hcp
      linarith
    funext i
    have hci := congrFun h i
    rw [hmv i, hb2 i, hp] at hci
    linarith
  · intro h
    funext i
    rw [hmv i, hb2 i, h]

theorem solset_scale {n : ℕ} (M : Mat n) (bb : Vec n) (p : Fin n) (c : ℚ) (hc : c ≠ 0)
    (M2 : Mat n) (b2 : Vec n)
    (hM2 : ∀ i j : Fin n, M2 i j = if i = p then M i j * c else M i j)
    (hb2 : ∀ i : Fin n, b2 i = if i = p then bb i * c else bb i) (x : Vec n) :
    mulVec M2 x = b2 ↔ mulVec M x = bb := by
  have hmv : ∀ i : Fin n, mulVec M2 x i
      = if i = p then mulVec M x i * c else mulVec M x i := by
    intro i
    show (∑ j : Fin n, M2 i j * x j) = _
    by_cases h1 : i = p
    · rw [if_pos h1]
      show _ = (∑ j : Fin n, M i j * x j) * c
      rw [Finset.sum_mul]
      refine Finset.sum_congr rfl (fun j _ => ?_)
      rw [hM2 i j, if_pos h1]
      ring
    · rw [if_neg h1]
      show _ = (∑ j : Fin n, M i j * x j)
      refine Finset.sum_congr rfl (fun j _ => ?_)
      rw [hM2 i j, if_neg h1]
  constructor
  · intro h
    funext i
    have hci := congrFun h i
    rw [hmv i, hb2 i] at hci
    by_cases h1 : i = p
    · rw [if_pos h1, if_pos h1] at hci
      exact mul_right_cancel₀ hc hci
    · rw [if_neg h1, if_neg h1] at hci
      exact hci
  · intro h
    funext i
    rw [hmv i, hb2 i, h]

theorem mulVec_idMat {n : ℕ} (x : Vec n) : mulVec (idMat n) x = x := by
  funext i
  show (∑ j : Fin n, (if i = j then (1:ℚ) else 0) * x j) = x i
  simp [ite_mul, Finset.sum_ite_eq]

/-- Along a non-delegating prefix of the run, the Gaussian-elimination
working system has exactly the same solutions as the original system. -/
theorem ge_solset {n : ℕ} (A : Mat n) (b : Vec n) :
    ∀ k, k ≤ n → ∀ st : LUState n, luRun A b k = some st →
      ∀ x : Vec n, (mulVec (geRun A b k).A x = (geRun A b k).b ↔ mulVec A x = b) := by
  intro k
  induction k with
  | zero =>
    intro _ st _ x
    exact Iff.rfl
  | succ k ih =>
    intro hk st' hst' x
    rw [luRun_succ] at hst'
    obtain ⟨st, hrun, hstep⟩ := Option.bind_eq_some.mp hst'
    have hIH := ih (by omega) st hrun
    obtain ⟨hpr, hrows⟩ := ge_lu_sync A b k (by omega) st hrun
    have inv := luRun_inv A b k (by omega) st hrun
    have hkn : k < n := by omega
    set kF : Fin n := ⟨k, hkn⟩ with hkF
    set ge := geRun A b k with hge
    set mL := selectPivot st.U kF kF with hmL
    have hkmL : kF ≤ mL := hmL ▸ selectPivot_le st.U kF kF
    have hsel : selectPivot ge.A kF kF = mL := by
      rw [hmL]
      exact selectPivot_congr ge.A st.U kF kF (fun i _ => congrFun (hrows i) kF)
    rw [luStep, dif_pos hkn] at hstep
    by_cases hpiv : rabs ((luSwapPhase st k hkn).U kF kF) < EPS
    · rw [if_pos hpiv] at hstep
      exact absurd hstep (by simp)
    rw [if_neg hpiv] at hstep
    have hpivval : (luSwapPhase st k hkn).U kF kF = st.U mL kF := luSwapPhase_pivot st k hkn
    have hgeval : ge.A mL kF = st.U mL kF := congrFun (hrows mL) kF
    have hpivge : ¬rabs (ge.A mL kF) < EPS := by
      rw [hgeval, ← hpivval]
      exact hpiv
    have hpivne : ge.A mL kF ≠ 0 := ne_zero_of_EPS_le (not_lt.mp hpivge)
    rw [geRun_succ]
    have hcond : k < n ∧ ge.pr < n := ⟨hkn, by omega⟩
    rw [geStep, dif_pos hcond]
    have hpF : (⟨ge.pr, hcond.2⟩ : Fin n) = kF := Fin.ext hpr
    simp only [hpF]
    rw [hsel, if_neg hpivge]
    dsimp only
    set A1 := swapRow ge.A kF mL with hA1d
    set b1 := swapVec ge.b kF mL with hb1d
    have hA1kk : A1 kF kF = ge.A mL kF := by
      rw [hA1d, swapRow, if_pos rfl]
    have hA1ne : A1 kF kF ≠ 0 := by
      rw [hA1kk]
      exact hpivne
    have hA1row : ∀ j : Fin n, j < kF → A1 kF j = 0 := by
      intro j hj
      rw [hA1d, swapRow, if_pos rfl, congrFun (hrows mL) j]
      exact inv.lowerU mL j (lt_of_lt_of_le hj hkmL) (Fin.lt_def.mp hj)
    have h2 : (mulVec (fun i j =>
          if kF < i then
            if j = kF then 0
            else if kF < j then A1 i j - A1 i kF / A1 kF kF * A1 kF j
            else A1 i j
          else A1 i j) x
        = fun i => if kF < i then b1 i - A1 i kF / A1 kF kF * b1 kF else b1 i)
        ↔ mulVec A1 x = b1 := by
      refine solset_elim A1 b1 kF (fun i => if kF < i then A1 i kF / A1 kF kF else 0)
        (if_neg (lt_irrefl kF)) _ _ ?_ ?_ x
      · intro i j
        dsimp only
        by_cases hi : kF < i
        · rw [if_pos hi, if_pos hi]
          by_cases hj : j = kF
          · rw [if_pos hj, hj, div_mul_cancel₀ _ hA1ne]
            ring
          · rw [if_neg hj]
            by_cases hj2 : kF < j
            · rw [if_pos hj2]
            · rw [if_neg hj2]
              have hjlt : j < kF := lt_of_le_of_ne (not_lt.mp hj2) hj
              rw [hA1row j hjlt]
              ring
        · rw [if_neg hi, if_neg hi]
          ring
      · intro i
        dsimp only
        by_cases hi : kF < i
        · rw [if_pos hi, if_pos hi]
        · rw [if_neg hi, if_neg hi]
          ring
    exact h2.trans ((solset_swap ge.A ge.b kF mL x).trans (hIH x))

/-- When Gaussian elimination pivots every column, its back-substitution
result solves the original system exactly. -/
theorem ge_unique_solves {n : ℕ} (A : Mat n) (b : Vec n)
    (hfull : (geRun A b n).pr = n) :
    mulVec A (backSubst (geRun A b n).A (geRun A b n).b) = b := by
  cases hlu : luRun A b n with
  | none =>
    have := ge_pr_lt_of_lu_none A b hlu
    omega
  | some st =>
    have inv := luRun_inv A b n (le_refl n) st hlu
    obtain ⟨_, hrows⟩ := ge_lu_sync A b n (le_refl n) st hlu
    have hAeq : (geRun A b n).A = st.U := funext hrows
    have hsolve : mulVec (geRun A b n).A (backSubst (geRun A b n).A (geRun A b n).b)
        = (geRun A b n).b := by
      refine mulVec_backSubst _ _ ?_ ?_
      · intro i
        rw [hAeq]
        exact ne_zero_of_EPS_le (inv.pivots i i.isLt)
      · intro i j hji
        rw [hAeq]
        exact inv.lowerU i j hji (lt_of_lt_of_le (Fin.lt_def.mp hji) i.isLt.le)
    exact (ge_solset A b n (le_refl n) st hlu _).mp hsolve

/-! ### The Gauss-Jordan invariant -/

theorem gjPivotStep_pr {n : ℕ} (st : GEState n) (c p m : Fin n) :
    (gjPivotStep st c p m).pr = st.pr + 1 := rfl

theorem gjPivotStep_A_low {n : ℕ} (st : GEState n) (c p m : Fin n) (i j : Fin n)
    (hj : ¬c ≤ j) : (gjPivotStep st c p m).A i j = swapRow st.A p m i j := by
  rw [gjPivotStep]
  dsimp only
  rw [if_neg (fun hc => hj hc.2), if_neg (fun hc => hj hc.2)]

theorem gjPivotStep_A_p {n : ℕ} (st : GEState n) (c p m : Fin n) (j : Fin n)
    (hj : c ≤ j) :
    (gjPivotStep st c p m).A p j = swapRow st.A p m p j / swapRow st.A p m p c := by
  rw [gjPivotStep]
  dsimp only
  rw [if_neg (fun hc => hc.1 rfl), if_pos ⟨rfl, hj⟩]

theorem gjPivotStep_A_other {n : ℕ} (st : GEState n) (c p m : Fin n) (i j : Fin n)
    (hip : i ≠ p) (hj : c ≤ j) :
    (gjPivotStep st c p m).A i j
      = swapRow st.A p m i j
        - swapRow st.A p m i c * (swapRow st.A p m p j / swapRow st.A p m p c) := by
  rw [gjPivotStep]
  dsimp only
  rw [if_pos ⟨hip, hj⟩, if_neg (fun hc => hip hc.1), if_neg (fun hc => hip hc.1),
    if_pos ⟨rfl, hj⟩]

theorem gjPivotStep_b_p {n : ℕ} (st : GEState n) (c p m : Fin n) :
    (gjPivotStep st c p m).b p = swapVec st.b p m p / swapRow st.A p m p c := by
  rw [gjPivotStep]
  dsimp only
  rw [if_neg (fun hc => hc rfl), if_pos rfl]

theorem gjPivotStep_b_other {n : ℕ} (st : GEState n) (c p m : Fin n) (i : Fin n)
    (hip : i ≠ p) :
    (gjPivotStep st c p m).b i
      = swapVec st.b p m i
        - swapRow st.A p m i c * (swapVec st.b p m p / swapRow st.A p m p c) := by
  rw [gjPivotStep]
  dsimp only
  rw [if_pos hip, if_neg hip, if_neg (fun hc => hip hc.1), if_pos rfl]

theorem gjStep_eq {n k : ℕ} (st : GEState n) (hcond : k < n ∧ st.pr < n) :
    gjStep st k =
      if rabs (st.A (selectPivot st.A ⟨k, hcond.1⟩ ⟨st.pr, hcond.2⟩) ⟨k, hcond.1⟩) < EPS
      then st
      else gjPivotStep st ⟨k, hcond.1⟩ ⟨st.pr, hcond.2⟩
        (selectPivot st.A ⟨k, hcond.1⟩ ⟨st.pr, hcond.2⟩) := by
  rw [gjStep, dif_pos hcond]

theorem gjStep_inv {n k : ℕ} {st : GEState n} (hk : k < n) (inv : GJInvariant k st) :
    GJInvariant (k + 1) (gjStep st k) := by
  by_cases hcond : k < n ∧ st.pr < n
  case neg =>
    rw [gjStep, dif_neg hcond]
    have hprn : n ≤ st.pr := by
      rcases Nat.lt_or_ge st.pr n with h | h
      · exact absurd ⟨hk, h⟩ hcond
      · exact h
    refine ⟨?_, ?_⟩
    · intro r hr
      obtain ⟨c, hck, hcol⟩ := inv.pivOnes r hr
      exact ⟨c, by omega, hcol⟩
    · intro c _ i hi
      have := i.isLt
      omega
  case pos =>
    rw [gjStep_eq st hcond]
    set kF : Fin n := ⟨k, hcond.1⟩ with hkF
    set pF : Fin n := ⟨st.pr, hcond.2⟩ with hpF
    set mS := selectPivot st.A kF pF with hmS
    have hpm : pF ≤ mS := hmS ▸ selectPivot_le st.A kF pF
    by_cases hskip : rabs (st.A mS kF) < EPS
    · rw [if_pos hskip]
      refine ⟨?_, ?_⟩
      · intro r hr
        obtain ⟨c, hck, hcol⟩ := inv.pivOnes r hr
        exact ⟨c, by omega, hcol⟩
      · intro c hck i hi
        rcases Nat.lt_or_ge c.val k with hc | hc
        · exact inv.smallCols c hc i hi
        · have hceq : c = kF := Fin.ext (by simp only [hkF]; omega)
          rw [hceq]
          calc rabs (st.A i kF) ≤ rabs (st.A mS kF) :=
                selectPivot_max st.A kF pF i (Fin.le_def.mpr hi)
            _ < EPS := hskip
    · rw [if_neg hskip]
      have hpivval : swapRow st.A pF mS pF kF = st.A mS kF := by
        rw [swapRow, if_pos rfl]
      have hpivne : swapRow st.A pF mS pF kF ≠ 0 := by
        rw [hpivval]
        exact ne_zero_of_EPS_le (not_lt.mp hskip)
      have hA3kF : ∀ i : Fin n,
          (gjPivotStep st kF pF mS).A i kF = if i = pF then 1 else 0 := by
        intro i
        by_cases hip : i = pF
        · rw [hip, gjPivotStep_A_p st kF pF mS kF (le_refl kF), div_self hpivne,
            if_pos rfl]
        · rw [gjPivotStep_A_other st kF pF mS i kF hip (le_refl kF), div_self hpivne,
            mul_one, sub_self, if_neg hip]
      have hlowcol : ∀ (i cc : Fin n), cc.val < k →
          (gjPivotStep st kF pF mS).A i cc = swapRow st.A pF mS i cc := by
        intro i cc hcc
        refine gjPivotStep_A_low st kF pF mS i cc ?_
        rw [Fin.le_def]
        simp only [hkF]
        omega
      refine ⟨?_, ?_⟩
      · intro r hr
        rw [gjPivotStep_pr] at hr
        rcases Nat.lt_or_ge r.val st.pr with hrold | hrnew
        · obtain ⟨c, hck, hcol⟩ := inv.pivOnes r hrold
          refine ⟨c, by omega, ?_⟩
          intro i
          rw [hlowcol i c hck, swapRow]
          have hrp : ¬pF = r := by
            intro hc
            rw [← hc] at hrold
            simp only [hpF] at hrold
            omega
          have hrm : ¬mS = r := by
            intro hc
            have h1 : st.pr ≤ mS.val := hpm
            rw [← hc] at hrold
            omega
          by_cases h1 : i = pF
          · rw [if_pos h1, hcol mS, if_neg hrm, if_neg (h1 ▸ hrp : ¬i = r)]
          · rw [if_neg h1]
            by_cases h2 : i = mS
            · rw [if_pos h2, hcol pF, if_neg hrp, if_neg (h2 ▸ hrm : ¬i = r)]
            · rw [if_neg h2, hcol i]
        · have hreq : r = pF := Fin.ext (by simp only [hpF]; omega)
          refine ⟨kF, by simp only [hkF]; omega, ?_⟩
          intro i
          rw [hA3kF i, hreq]
      · intro cc hcc i hi
        rw [gjPivotStep_pr] at hi
        rcases Nat.lt_or_ge cc.val k with hc | hc
        · rw [hlowcol i cc hc, swapRow]
          have hip : ¬i = pF := by
            intro hcon
            rw [hcon] at hi
            simp only [hpF] at hi
            omega
          rw [if_neg hip]
          by_cases h2 : i = mS
          · rw [if_pos h2]
            exact inv.smallCols cc hc pF (le_refl st.pr)
          · rw [if_neg h2]
            exact inv.smallCols cc hc i (by omega)
        · have hceq : cc = kF := Fin.ext (by simp only [hkF]; omega)
          have hip : ¬i = pF := by
            intro hcon
            rw [hcon] at hi
            simp only [hpF] at hi
            omega
          rw [hceq, hA3kF i, if_neg hip]
          rw [rabs]
          rw [if_neg (lt_irrefl 0)]
          exact EPS_pos

theorem gjRun_inv {n : ℕ} (A : Mat n) (b : Vec n) :
    ∀ k, k ≤ n → GJInvariant k (gjRun A b k) := by
  intro k
  induction k with
  | zero =>
    intro _
    refine ⟨?_, ?_⟩
    · intro r hr
      exact absurd hr (by rw [gjRun]; simp)
    · intro c hc
      exact absurd hc (Nat.not_lt_zero _)
  | succ k ih =>
    intro hk
    rw [gjRun_succ]
    exact gjStep_inv (by omega) (ih (by omega))

/-- At the end of the Gauss-Jordan run, the inconsistency scan fires
exactly on rows at or below the pivot counter with an over-tolerance
`b`-entry: rows above the counter hold a pivot `1` and can never count as
zero rows. -/
theorem gjBad_iff_pr {n : ℕ} (A : Mat n) (b : Vec n) :
    gjBad (gjRun A b n) = true ↔
      ∃ i : Fin n, (gjRun A b n).pr ≤ i.val ∧ EPS < rabs ((gjRun A b n).b i) := by
  have inv := gjRun_inv A b n (le_refl n)
  rw [gjBad_iff]
  constructor
  · rintro ⟨i, hrow, hb⟩
    refine ⟨i, ?_, hb⟩
    by_contra hlt
    push_neg at hlt
    obtain ⟨c, _, hcol⟩ := inv.pivOnes i hlt
    have h1 := hrow c
    rw [hcol i, if_pos rfl] at h1
    have h2 : rabs (1:ℚ) = 1 := by
      rw [rabs, if_neg]
      norm_num
    rw [h2] at h1
    have h3 : EPS < 1 := by norm_num [EPS]
    linarith
  · rintro ⟨i, hpr, hb⟩
    refine ⟨i, ?_, hb⟩
    intro j
    exact le_of_lt (inv.smallCols j j.isLt i hpr)

/-- One synchronized stage of Gaussian elimination against Gauss-Jordan:
the two make the same pivot decision, and the rows not yet frozen (at or
below the pivot counter) remain equal, in the matrix and in `b`. -/
theorem ge_gj_step_sync {n k : ℕ} (ge gj : GEState n)
    (hpr : ge.pr = gj.pr)
    (hrows : ∀ i : Fin n, gj.pr ≤ i.val → ge.A i = gj.A i ∧ ge.b i = gj.b i) :
    (geStep ge k).pr = (gjStep gj k).pr ∧
      ∀ i : Fin n, (gjStep gj k).pr ≤ i.val →
        (geStep ge k).A i = (gjStep gj k).A i ∧ (geStep ge k).b i = (gjStep gj k).b i := by
  by_cases hcond : k < n ∧ gj.pr < n
  case neg =>
    have hcondg : ¬(k < n ∧ ge.pr < n) := by
      rw [hpr]
      exact hcond
    rw [geStep, dif_neg hcondg, gjStep, dif_neg hcond]
    exact ⟨hpr, hrows⟩
  case pos =>
    have hcondg : k < n ∧ ge.pr < n := ⟨hcond.1, by omega⟩
    set kF : Fin n := ⟨k, hcond.1⟩ with hkFd
    set pF : Fin n := ⟨gj.pr, hcond.2⟩ with hpFd
    set mS := selectPivot gj.A kF pF with hmS
    have hpm : pF ≤ mS := hmS ▸ selectPivot_le gj.A kF pF
    have hsel : selectPivot ge.A kF pF = mS := by
      rw [hmS]
      exact selectPivot_congr ge.A gj.A kF pF
        (fun i hi => congrFun (hrows i (Fin.le_def.mp hi)).1 kF)
    have hpivvals : ge.A mS kF = gj.A mS kF :=
      congrFun (hrows mS (Fin.le_def.mp hpm)).1 kF
    rw [geStep, dif_pos hcondg]
    have hpFg : (⟨ge.pr, hcondg.2⟩ : Fin n) = pF := Fin.ext hpr
    simp only [hpFg]
    rw [hsel, gjStep_eq gj hcond]
    by_cases hskip : rabs (gj.A mS kF) < EPS
    · have hskipg : rabs (ge.A mS kF) < EPS := by
        rw [hpivvals]
        exact hskip
      rw [if_pos hskipg, if_pos hskip]
      exact ⟨hpr, hrows⟩
    · have hskipg : ¬rabs (ge.A mS kF) < EPS := by
        rw [hpivvals]
        exact hskip
      rw [if_neg hskipg, if_neg hskip]
      have hpivne : swapRow gj.A pF mS pF kF ≠ 0 := by
        rw [swapRow, if_pos rfl]
        exact ne_zero_of_EPS_le (not_lt.mp hskip)
      have hswA : ∀ r : Fin n, gj.pr ≤ r.val → ∀ j : Fin n,
          swapRow ge.A pF mS r j = swapRow gj.A pF mS r j := by
        intro r hr j
        rw [swapRow, swapRow]
        by_cases h1 : r = pF
        · rw [if_pos h1, if_pos h1, (hrows mS (Fin.le_def.mp hpm)).1]
        · rw [if_neg h1, if_neg h1]
          by_cases h2 : r = mS
          · rw [if_pos h2, if_pos h2, (hrows pF (le_refl gj.pr)).1]
          · rw [if_neg h2, if_neg h2, (hrows r hr).1]
      have hswb : ∀ r : Fin n, gj.pr ≤ r.val →
          swapVec ge.b pF mS r = swapVec gj.b pF mS r := by
        intro r hr
        rw [swapVec, swapVec]
        by_cases h1 : r = pF
        · rw [if_pos h1, if_pos h1, (hrows mS (Fin.le_def.mp hpm)).2]
        · rw [if_neg h1, if_neg h1]
          by_cases h2 : r = mS
          · rw [if_pos h2, if_pos h2, (hrows pF (le_refl gj.pr)).2]
          · rw [if_neg h2, if_neg h2, (hrows r hr).2]
      refine ⟨by rw [gjPivotStep_pr]; show ge.pr + 1 = gj.pr + 1; rw [hpr], ?_⟩
      intro i hi
      rw [gjPivotStep_pr] at hi
      have hip : i ≠ pF := by
        intro hc
        rw [hc] at hi
        simp only [hpFd] at hi
        omega
      have hkFi : pF < i := Fin.lt_def.mpr (by simp only [hpFd]; omega)
      constructor
      · funext j
        dsimp only
        rw [if_pos hkFi]
        by_cases hj : j = kF
        · rw [if_pos hj, hj]
          rw [gjPivotStep_A_other gj kF pF mS i kF hip (le_refl kF), div_self hpivne,
            mul_one, sub_self]
        · rw [if_neg hj]
          by_cases hj2 : kF < j
          · rw [if_pos hj2, gjPivotStep_A_other gj kF pF mS i j hip (le_of_lt hj2)]
            rw [hswA i (by omega) j, hswA i (by omega) kF, hswA pF (le_refl gj.pr) kF,
              hswA pF (le_refl gj.pr) j]
            ring
          · rw [if_neg hj2, gjPivotStep_A_low gj kF pF mS i j (by
              intro hc
              exact hj2 (lt_of_le_of_ne hc (fun he => hj he.symm)))]
            exact hswA i (by omega) j
      · dsimp only
        rw [if_pos hkFi]
        rw [gjPivotStep_b_other gj kF pF mS i hip]
        rw [hswb i (by omega), hswb pF (le_refl gj.pr), hswA i (by omega) kF,
          hswA pF (le_refl gj.pr) kF]
        ring

/-- The run-level lockstep of Gaussian elimination and Gauss-Jordan. -/
theorem ge_gj_sync {n : ℕ} (A : Mat n) (b : Vec n) (k : ℕ) :
    (geRun A b k).pr = (gjRun A b k).pr ∧
      ∀ i : Fin n, (gjRun A b k).pr ≤ i.val →
        (geRun A b k).A i = (gjRun A b k).A i ∧ (geRun A b k).b i = (gjRun A b k).b i := by
  induction k with
  | zero => exact ⟨rfl, fun i _ => ⟨rfl, rfl⟩⟩
  | succ k ih =>
    rw [geRun_succ, gjRun_succ]
    exact ge_gj_step_sync (geRun A b k) (gjRun A b k) ih.1 ih.2

/-- Along a skip-free Gauss-Jordan run: every processed column of the
working matrix is the corresponding identity column, and the working
system keeps exactly the solutions of the original system. -/
theorem gj_ns {n : ℕ} (A : Mat n) (b : Vec n) (hfull : (gjRun A b n).pr = n) :
    ∀ k, k ≤ n →
      (∀ c : Fin n, c.val < k → ∀ i : Fin n,
        (gjRun A b k).A i c = if i.val = c.val then 1 else 0) ∧
      ∀ x : Vec n, (mulVec (gjRun A b k).A x = (gjRun A b k).b ↔ mulVec A x = b) := by
  have hprall := gjRun_pr_all_of_final A b hfull
  intro k
  induction k with
  | zero =>
    intro _
    refine ⟨fun c hc => absurd hc (Nat.not_lt_zero _), fun x => Iff.rfl⟩
  | succ k ih =>
    intro hk
    obtain ⟨hid, hsol⟩ := ih (by omega)
    have hkn : k < n := by omega
    have hprk : (gjRun A b k).pr = k := hprall k (by omega)
    have hprk1 : (gjRun A b (k + 1)).pr = k + 1 := hprall (k + 1) hk
    set gj := gjRun A b k with hgj
    have hcond : k < n ∧ gj.pr < n := ⟨hkn, by omega⟩
    rw [gjRun_succ] at hprk1 ⊢
    rw [gjStep_eq gj hcond] at hprk1 ⊢
    set kF : Fin n := ⟨k, hcond.1⟩ with hkFd
    set pF : Fin n := ⟨gj.pr, hcond.2⟩ with hpFd
    set mS := selectPivot gj.A kF pF with hmS
    have hpFval : pF.val = k := hprk
    have hpm : pF ≤ mS := hmS ▸ selectPivot_le gj.A kF pF
    have hmSval : k ≤ mS.val := by
      have h : gj.pr ≤ mS.val := hpm
      omega
    by_cases hskip : rabs (gj.A mS kF) < EPS
    · rw [if_pos hskip] at hprk1
      omega
    rw [if_neg hskip] at hprk1 ⊢
    have hpivne : swapRow gj.A pF mS pF kF ≠ 0 := by
      rw [swapRow, if_pos rfl]
      exact ne_zero_of_EPS_le (not_lt.mp hskip)
    have hA1low : ∀ cc : Fin n, cc.val < k → swapRow gj.A pF mS pF cc = 0 := by
      intro cc hcc
      rw [swapRow, if_pos rfl, hid cc hcc mS, if_neg]
      omega
    constructor
    · intro c hc i
      rcases Nat.lt_or_ge c.val k with hck | hck
      · rw [gjPivotStep_A_low gj kF pF mS i c (by
          intro hle
          have : k ≤ c.val := hle
          omega)]
        rw [swapRow]
        by_cases h1 : i = pF
        · rw [if_pos h1, hid c hck mS, if_neg (by omega), if_neg (by
            rw [h1]
            omega)]
        · rw [if_neg h1]
          by_cases h2 : i = mS
          · rw [if_pos h2, hid c hck pF, if_neg (by omega), if_neg (by
              rw [h2]
              omega)]
          · rw [if_neg h2, hid c hck i]
      · have hceq : c = kF := Fin.ext (by
          show c.val = k
          omega)
        rw [hceq]
        by_cases hip : i = pF
        · rw [hip, gjPivotStep_A_p gj kF pF mS kF (le_refl kF), div_self hpivne,
            if_pos (by show pF.val = kF.val; exact hpFval)]
        · rw [gjPivotStep_A_other gj kF pF mS i kF hip (le_refl kF), div_self hpivne,
            mul_one, sub_self, if_neg (by
              intro hval
              exact hip (Fin.ext (by rw [hval]; exact hpFval.symm)))]
    · intro x
      set A1 := swapRow gj.A pF mS with hA1
      set b1 := swapVec gj.b pF mS with hb1
      set piv := A1 pF kF with hpiv
      set A2 : Mat n := fun i j => if i = pF then A1 i j * (1 / piv) else A1 i j with hA2
      set b2 : Vec n := fun i => if i = pF then b1 i * (1 / piv) else b1 i with hb2
      have iff1 : (mulVec A2 x = b2) ↔ mulVec A1 x = b1 :=
        solset_scale A1 b1 pF (1 / piv) (one_div_ne_zero hpivne) A2 b2
          (fun i j => by rw [hA2]) (fun i => by rw [hb2]) x
      have hA2pF : ∀ j : Fin n, A2 pF j = A1 pF j * (1 / piv) := by
        intro j
        rw [hA2]
        dsimp only
        rw [if_pos rfl]
      have iff2 : (mulVec (gjPivotStep gj kF pF mS).A x = (gjPivotStep gj kF pF mS).b)
          ↔ mulVec A2 x = b2 := by
        refine solset_elim A2 b2 pF (fun i => if i = pF then 0 else A1 i kF)
          (if_pos rfl) _ _ ?_ ?_ x
        · intro i j
          by_cases hip : i = pF
          · rw [hip]
            dsimp only
            rw [if_pos rfl, hA2pF j, zero_mul, sub_zero]
            rcases le_or_lt kF j with hj | hj
            · rw [gjPivotStep_A_p gj kF pF mS j hj, mul_one_div]
            · rw [gjPivotStep_A_low gj kF pF mS pF j (not_le.mpr hj)]
              have hz : A1 pF j = 0 := hA1low j (by
                have : j.val < kF.val := hj
                exact this)
              rw [hz, zero_mul]
              exact hz
          · dsimp only
            rw [if_neg hip]
            have hA2i : ∀ j' : Fin n, A2 i j' = A1 i j' := by
              intro j'
              rw [hA2]
              dsimp only
              rw [if_neg hip]
            rcases le_or_lt kF j with hj | hj
            · rw [gjPivotStep_A_other gj kF pF mS i j hip hj, hA2i j, hA2pF j,
                mul_one_div]
            · rw [gjPivotStep_A_low gj kF pF mS i j (not_le.mpr hj), hA2i j, hA2pF j]
              have hz : A1 pF j = 0 := hA1low j (by
                have : j.val < kF.val := hj
                exact this)
              rw [hz, zero_mul, mul_zero, sub_zero]
        · intro i
          by_cases hip : i = pF
          · rw [hip]
            dsimp only
            rw [if_pos rfl, zero_mul, sub_zero, gjPivotStep_b_p gj kF pF mS]
            rw [hb2]
            dsimp only
            rw [if_pos rfl, mul_one_div]
          · dsimp only
            rw [if_neg hip, gjPivotStep_b_other gj kF pF mS i hip]
            have hb2i : b2 i = b1 i := by
              rw [hb2]
              dsimp only
              rw [if_neg hip]
            have hb2p : b2 pF = b1 pF * (1 / piv) := by
              rw [hb2]
              dsimp only
              rw [if_pos rfl]
            rw [hb2i, hb2p, mul_one_div]
      exact iff2.trans (iff1.trans ((solset_swap gj.A gj.b pF mS x).trans (hsol x)))

/-- With a skip-free Gauss-Jordan run, the transformed right-hand side is
the one and only solution of the original system. -/
theorem gj_unique_char {n : ℕ} (A : Mat n) (b : Vec n)
    (hfull : (gjRun A b n).pr = n) :
    ∀ x : Vec n, mulVec A x = b ↔ x = (gjRun A b n).b := by
  intro x
  obtain ⟨hid, hsol⟩ := gj_ns A b hfull n (le_refl n)
  have hA : (gjRun A b n).A = idMat n := by
    funext i j
    rw [hid j j.isLt i, idMat]
    by_cases h : i = j
    · rw [if_pos h, if_pos (by rw [h])]
    · rw [if_neg h, if_neg (fun hval => h (Fin.ext hval))]
  constructor
  · intro h
    have := (hsol x).mpr h
    rw [hA, mulVec_idMat] at this
    exact this
  · intro h
    refine (hsol x).mp ?_
    rw [hA, mulVec_idMat, h]

/-! ### Cross-method agreement -/

/-- `solveGaussElimination` written with its branches exposed. -/
theorem solveGE_eq {n : ℕ} (A : Mat n) (b : Vec n) :
    solveGaussElimination A b =
      if geBad (geRun A b n) then { status := .none }
      else if (geRun A b n).pr < n then { status := .infinite }
      else { status := .unique,
             solution := some (backSubst (geRun A b n).A (geRun A b n).b) } := rfl

/-- `solveGaussJordan` written with its branches exposed. -/
theorem solveGJ_eq {n : ℕ} (A : Mat n) (b : Vec n) :
    solveGaussJordan A b =
      if gjBad (gjRun A b n) then { status := .none }
      else if (gjRun A b n).pr < n then { status := .infinite }
      else { status := .unique, solution := some (gjRun A b n).b } := rfl

/-- The two inconsistency scans agree, because the pivot counters agree and
the unfrozen rows of `b` agree. -/
theorem ge_gj_bad_iff {n : ℕ} (A : Mat n) (b : Vec n) :
    (geBad (geRun A b n) = true ↔ gjBad (gjRun A b n) = true) := by
  obtain ⟨hpr, hrows⟩ := ge_gj_sync A b n
  rw [geBad_iff, gjBad_iff_pr]
  constructor
  · rintro ⟨i, hi, hb⟩
    have hi2 : (gjRun A b n).pr ≤ i.val := by omega
    refine ⟨i, hi2, ?_⟩
    rw [← (hrows i hi2).2]
    exact hb
  · rintro ⟨i, hi, hb⟩
    refine ⟨i, by omega, ?_⟩
    rw [(hrows i hi).2]
    exact hb

/-- Gaussian elimination and Gauss-Jordan agree in status and in solution. -/
theorem ge_gj_agree {n : ℕ} (A : Mat n) (b : Vec n) :
    (solveGaussElimination A b).status = (solveGaussJordan A b).status ∧
      (solveGaussElimination A b).solution = (solveGaussJordan A b).solution := by
  obtain ⟨hpr, hrows⟩ := ge_gj_sync A b n
  rw [solveGE_eq, solveGJ_eq]
  by_cases hbad : gjBad (gjRun A b n) = true
  · rw [if_pos hbad, if_pos ((ge_gj_bad_iff A b).mpr hbad)]
    exact ⟨rfl, rfl⟩
  · rw [if_neg hbad, if_neg (fun hh => hbad ((ge_gj_bad_iff A b).mp hh))]
    by_cases hlt : (gjRun A b n).pr < n
    · rw [if_pos hlt, if_pos (by omega : (geRun A b n).pr < n)]
      exact ⟨rfl, rfl⟩
    · rw [if_neg hlt, if_neg (by omega : ¬(geRun A b n).pr < n)]
      refine ⟨rfl, ?_⟩
      have hfullgj : (gjRun A b n).pr = n := by
        have := gjRun_pr_le A b n
        omega
      have hfullge : (geRun A b n).pr = n := by omega
      have hx := (gj_unique_char A b hfullgj _).mp (ge_unique_solves A b hfullge)
      rw [hx]

/-- Gaussian elimination and LU factorization agree in status and in
solution. -/
theorem ge_lu_agree {n : ℕ} (A : Mat n) (b : Vec n) :
    (solveGaussElimination A b).status = (solveLUFactorization A b).status ∧
      (solveGaussElimination A b).solution = (solveLUFactorization A b).solution := by
  cases hlu : luRun A b n with
  | none =>
    rw [solveLU_of_none A b hlu]
    exact ⟨rfl, rfl⟩
  | some st =>
    obtain ⟨hpr, hrows⟩ := ge_lu_sync A b n (le_refl n) st hlu
    rw [solveLU_of_some A b hlu, solveGE_of_full A b hpr]
    refine ⟨rfl, ?_⟩
    have hprgj : (gjRun A b n).pr = n := by
      rw [← (ge_gj_sync A b n).1]
      exact hpr
    have e1 := (gj_unique_char A b hprgj _).mp (ge_unique_solves A b hpr)
    have e2 := (gj_unique_char A b hprgj _).mp (lu_solution_solves A b hlu)
    rw [e1.trans e2.symm]

/-- C1: for every square matrix `A` and every matching vector `b`, the
three solvers `solveGaussElimination`, `solveGaussJordan` and
`solveLUFactorization` report the same status, and their solution fields
are equal (in particular, when the status is Unique the solution vectors
agree exactly over exact arithmetic, hence within any tolerance). -/
theorem C1_cross_method_agreement {n : ℕ} (A : Mat n) (b : Vec n) :
    ((solveGaussElimination A b).status = (solveGaussJordan A b).status ∧
      (solveGaussElimination A b).status = (solveLUFactorization A b).status) ∧
    ((solveGaussElimination A b).solution = (solveGaussJordan A b).solution ∧
      (solveGaussElimination A b).solution = (solveLUFactorization A b).solution) :=
  ⟨⟨(ge_gj_agree A b).1, (ge_lu_agree A b).1⟩,
    ⟨(ge_gj_agree A b).2, (ge_lu_agree A b).2⟩⟩

theorem fin1_eq (i j : Fin 1) : i = j := Subsingleton.elim i j

/-- The LU decomposition on `[[1]]`, `[1]` completes with `U = [[1]]`,
`L = P = I`, `Pb = [1]`. -/
theorem luRun_one : luRun oneMat oneVec 1 = some luOneSt := by
  have h01 : (0 : ℕ) < 1 := Nat.zero_lt_one
  have hstep : luStep (luInit oneMat oneVec) 0 = some luOneSt := by
    rw [luStep, dif_pos h01]
    have hsw : luSwapPhase (luInit oneMat oneVec) 0 h01 = luInit oneMat oneVec := rfl
    dsimp only
    rw [hsw]
    rw [if_neg (by
      show ¬rabs ((luInit oneMat oneVec).U ⟨0, h01⟩ ⟨0, h01⟩) < EPS
      show ¬rabs 1 < EPS
      rw [rabs_eq_abs]
      norm_num [EPS])]
    refine congrArg some ?_
    show LUState.mk _ _ _ _ = LUState.mk oneMat (idMat 1) (idMat 1) oneVec
    rw [LUState.mk.injEq]
    refine ⟨?_, ?_, rfl, rfl⟩
    · funext i j
      have hni : ¬(⟨0, h01⟩ : Fin 1) < i := fun hlt =>
        absurd (fin1_eq (⟨0, h01⟩ : Fin 1) i) (ne_of_lt hlt)
      rw [if_neg hni]
      rfl
    · funext i j
      have hni : ¬((⟨0, h01⟩ : Fin 1) < i ∧ j = ⟨0, h01⟩) := fun hc =>
        absurd (fin1_eq (⟨0, h01⟩ : Fin 1) i) (ne_of_lt hc.1)
      rw [if_neg hni]
      rfl
  have h2 : luRun oneMat oneVec (0 + 1) = (luRun oneMat oneVec 0).bind (luStep · 0) :=
    luRun_succ _ _ 0
  rw [show luRun oneMat oneVec 1 = (luRun oneMat oneVec 0).bind (luStep · 0) from h2,
    show luRun oneMat oneVec 0 = some (luInit oneMat oneVec) from rfl, Option.some_bind]
  exact hstep

/-- C2: whenever, after the pivoting phase of some LU stage `k`, the pivot
magnitude `|U[k][k]|` is below `EPSILON`, `solveLUFactorization` returns
the result of `solveGaussElimination` on the same input verbatim, so the
two statuses coincide. -/
theorem C2_lu_delegation {n k : ℕ} (A : Mat n) (b : Vec n) (st : LUState n)
    (hk : k < n) (hrun : luRun A b k = some st)
    (hsmall : rabs ((luSwapPhase st k hk).U ⟨k, hk⟩ ⟨k, hk⟩) < EPS) :
    solveLUFactorization A b = solveGaussElimination A b ∧
      (solveLUFactorization A b).status = (solveGaussElimination A b).status := by
  have hstep : luStep st k = Option.none := (luStep_none_iff st k hk).mpr hsmall
  have h1 : luRun A b (k + 1) = Option.none := by
    rw [luRun_succ, hrun, Option.some_bind]
    exact hstep
  have hn : luRun A b n = Option.none := luRun_none_mono A b (by omega) h1
  have heq := solveLU_of_none A b hn
  exact ⟨heq, by rw [heq]⟩

/-- The delegation hypotheses of `C2_lu_delegation` hold at the concrete
input `[[0]]`, `[0]`, and there the LU result is the Gaussian-elimination
result verbatim. -/
theorem C2_lu_delegation_witness :
    ((0 : ℕ) < 1 ∧ luRun zeroMat zeroVec 0 = some (luInit zeroMat zeroVec) ∧
      rabs ((luSwapPhase (luInit zeroMat zeroVec) 0 Nat.zero_lt_one).U
          ⟨0, Nat.zero_lt_one⟩ ⟨0, Nat.zero_lt_one⟩) < EPS) ∧
    (solveLUFactorization zeroMat zeroVec = solveGaussElimination zeroMat zeroVec ∧
      (solveLUFactorization zeroMat zeroVec).status =
        (solveGaussElimination zeroMat zeroVec).status) :=
  ⟨⟨Nat.zero_lt_one, rfl, by
      show rabs ((luInit zeroMat zeroVec).U ⟨0, Nat.zero_lt_one⟩ ⟨0, Nat.zero_lt_one⟩) < EPS
      show rabs 0 < EPS
      rw [rabs_eq_abs, abs_zero]
      exact EPS_pos⟩,
    C2_lu_delegation zeroMat zeroVec (luInit zeroMat zeroVec) Nat.zero_lt_one rfl (by
      show rabs ((luInit zeroMat zeroVec).U ⟨0, Nat.zero_lt_one⟩ ⟨0, Nat.zero_lt_one⟩) < EPS
      show rabs 0 < EPS
      rw [rabs_eq_abs, abs_zero]
      exact EPS_pos)⟩

/-- C3: `solveGaussElimination` reports None exactly when, after the
forward phase, some row at or below the pivot counter has `|b[i]|` above
`EPSILON`; otherwise Infinite exactly when the pivot count falls short of
`n`; otherwise Unique, with the back-substitution vector as the solution,
and that vector satisfies the back-substitution recurrence
`x[i] = (b[i] - sum of A[i][j]*x[j] for j > i) / A[i][i]`. -/
theorem C3_ge_classification {n : ℕ} (A : Mat n) (b : Vec n) :
    (((solveGaussElimination A b).status = .none ↔
        ∃ i : Fin n, (geForward A b).pr ≤ i.val ∧ EPS < rabs ((geForward A b).b i)) ∧
      ((solveGaussElimination A b).status = .infinite ↔
        (¬∃ i : Fin n, (geForward A b).pr ≤ i.val ∧ EPS < rabs ((geForward A b).b i)) ∧
          (geForward A b).pr < n) ∧
      ((solveGaussElimination A b).status = .unique ↔
        (¬∃ i : Fin n, (geForward A b).pr ≤ i.val ∧ EPS < rabs ((geForward A b).b i)) ∧
          (geForward A b).pr = n)) ∧
    ((solveGaussElimination A b).status = .unique →
      (solveGaussElimination A b).solution =
        some (backSubst (geForward A b).A (geForward A b).b)) ∧
    ∀ i : Fin n,
      backSubst (geForward A b).A (geForward A b).b i =
        ((geForward A b).b i -
            ∑ j : Fin n, if i < j then
              (geForward A b).A i j * backSubst (geForward A b).A (geForward A b).b j
            else 0) /
          (geForward A b).A i i := by
  simp only [geForward]
  rw [solveGE_eq]
  by_cases hbad : geBad (geRun A b n) = true
  · have hex := (geBad_iff _).mp hbad
    rw [if_pos hbad]
    refine ⟨⟨Iff.intro (fun _ => hex) (fun _ => rfl),
      Iff.intro (fun h => SolutionStatus.noConfusion h) (fun h => absurd hex h.1),
      Iff.intro (fun h => SolutionStatus.noConfusion h) (fun h => absurd hex h.1)⟩,
      fun h => SolutionStatus.noConfusion h, fun i => backSubst_spec _ _ i⟩
  · have hnex : ¬∃ i : Fin n, (geRun A b n).pr ≤ i.val ∧ EPS < rabs ((geRun A b n).b i) :=
      fun hex => hbad ((geBad_iff _).mpr hex)
    rw [if_neg hbad]
    by_cases hlt : (geRun A b n).pr < n
    · rw [if_pos hlt]
      exact ⟨⟨Iff.intro (fun h => SolutionStatus.noConfusion h) (fun h => absurd h hnex),
        Iff.intro (fun _ => ⟨hnex, hlt⟩) (fun _ => rfl),
        Iff.intro (fun h => SolutionStatus.noConfusion h) (fun h => absurd h.2 (by omega))⟩,
        fun h => SolutionStatus.noConfusion h, fun i => backSubst_spec _ _ i⟩
    · have hfull : (geRun A b n).pr = n := by
        have := geRun_pr_le A b n
        omega
      rw [if_neg hlt]
      exact ⟨⟨Iff.intro (fun h => SolutionStatus.noConfusion h) (fun h => absurd h hnex),
        Iff.intro (fun h => SolutionStatus.noConfusion h) (fun h => absurd h.2 hlt),
        Iff.intro (fun _ => ⟨hnex, hfull⟩) (fun _ => rfl)⟩,
        fun _ => rfl, fun i => backSubst_spec _ _ i⟩

/-- C9: a result of `solveLUFactorization` carries the `L`, `U` and `P`
matrices exactly when its status is Unique, and whenever the decomposition
delegates, the delegated Gaussian-elimination result has a deficient pivot
count and so is never Unique. -/
theorem C9_lup_iff_unique {n : ℕ} (A : Mat n) (b : Vec n) :
    (((solveLUFactorization A b).status = .unique) ↔
      ((solveLUFactorization A b).L ≠ Option.none ∧
        (solveLUFactorization A b).U ≠ Option.none ∧
        (solveLUFactorization A b).P ≠ Option.none)) ∧
    (luRun A b n = Option.none →
      (geRun A b n).pr < n ∧ (solveGaussElimination A b).status ≠ .unique) := by
  constructor
  · cases hlu : luRun A b n with
    | none =>
      rw [solveLU_of_none A b hlu]
      have hlt := ge_pr_lt_of_lu_none A b hlu
      rcases solveGE_of_deficient A b hlt with h | h <;> rw [h]
      · exact Iff.intro (fun hs => SolutionStatus.noConfusion hs)
          (fun hc => absurd rfl hc.1)
      · exact Iff.intro (fun hs => SolutionStatus.noConfusion hs)
          (fun hc => absurd rfl hc.1)
    | some st =>
      rw [solveLU_of_some A b hlu]
      exact Iff.intro
        (fun _ => ⟨fun h => Option.noConfusion h, fun h => Option.noConfusion h,
          fun h => Option.noConfusion h⟩)
        (fun _ => rfl)
  · intro h
    have hlt := ge_pr_lt_of_lu_none A b h
    refine ⟨hlt, ?_⟩
    rcases solveGE_of_deficient A b hlt with h2 | h2 <;> rw [h2] <;>
      exact fun hs => SolutionStatus.noConfusion hs

/-- C10: once the LU decomposition loop completes, every diagonal entry of
`U` has magnitude at least `EPSILON`, so the backward-substitution re-check
never delegates: on any right-hand side it returns the plain
back-substitution vector. -/
theorem C10_recheck_unreachable {n : ℕ} (A : Mat n) (b : Vec n) (st : LUState n)
    (h : luRun A b n = some st) :
    (∀ i : Fin n, EPS ≤ rabs (st.U i i)) ∧
    ∀ y : Vec n, backSubstChecked st.U y = some (backSubst st.U y) := by
  have inv := luRun_inv A b n (le_refl n) st h
  exact ⟨fun i => inv.pivots i i.isLt,
    fun y => backSubstChecked_eq st.U y (fun i => inv.pivots i i.isLt)⟩

/-- On `[[1]]`, `[1]` the decomposition completes, the diagonal of `U`
clears `EPSILON`, and the checked backward substitution never delegates. -/
theorem C10_recheck_unreachable_witness :
    luRun oneMat oneVec 1 = some luOneSt ∧
    ((∀ i : Fin 1, EPS ≤ rabs (luOneSt.U i i)) ∧
      ∀ y : Vec 1, backSubstChecked luOneSt.U y = some (backSubst luOneSt.U y)) :=
  ⟨luRun_one, C10_recheck_unreachable oneMat oneVec luOneSt luRun_one⟩

/-- C4: whenever `solveLUFactorization` returns through its own LU path
(`L`, `U`, `P` attached), the status is Unique, `L` has unit diagonal, `U`
is exactly zero strictly below the diagonal, `P` is a permutation matrix
(every entry 0 or 1, exactly one 1 in every row and in every column), and
`P*A = L*U` exactly. -/
theorem C4_lu_structure {n : ℕ} (A : Mat n) (b : Vec n) {L0 U0 P0 : Mat n}
    (hL : (solveLUFactorization A b).L = some L0)
    (hU : (solveLUFactorization A b).U = some U0)
    (hP : (solveLUFactorization A b).P = some P0) :
    (solveLUFactorization A b).status = .unique ∧
    (∀ i : Fin n, L0 i i = 1) ∧
    (∀ i j : Fin n, j < i → U0 i j = 0) ∧
    (∀ i j : Fin n, P0 i j = 0 ∨ P0 i j = 1) ∧
    (∀ i : Fin n, ∃! j : Fin n, P0 i j = 1) ∧
    (∀ j : Fin n, ∃! i : Fin n, P0 i j = 1) ∧
    matMul P0 A = matMul L0 U0 := by
  cases hlu : luRun A b n with
  | none =>
    exfalso
    have heq := solveLU_of_none A b hlu
    have hlt := ge_pr_lt_of_lu_none A b hlu
    rcases solveGE_of_deficient A b hlt with h | h <;> rw [heq, h] at hL <;>
      exact Option.noConfusion hL
  | some st =>
    have hres := solveLU_of_some A b hlu
    rw [hres] at hL hU hP
    have hL0 : L0 = st.L := (Option.some_inj.mp hL).symm
    have hU0 : U0 = st.U := (Option.some_inj.mp hU).symm
    have hP0 : P0 = st.P := (Option.some_inj.mp hP).symm
    have inv := luRun_inv A b n (le_refl n) st hlu
    obtain ⟨σ, hPmat, hPb⟩ := inv.perm
    subst hL0 hU0 hP0
    refine ⟨by rw [hres], inv.diagL, fun i j hj => inv.lowerU i j hj j.isLt,
      ?_, ?_, ?_, inv.factor⟩
    · intro i j
      rw [hPmat i j]
      by_cases h : σ i = j
      · right
        rw [if_pos h]
      · left
        rw [if_neg h]
    · intro i
      refine ⟨σ i, ?_, ?_⟩
      · show st.P i (σ i) = 1
        rw [hPmat, if_pos rfl]
      · intro y hy
        have hy2 : st.P i y = 1 := hy
        by_cases hcase : σ i = y
        · exact hcase.symm
        · rw [hPmat, if_neg hcase] at hy2
          exact absurd hy2 (by norm_num)
    · intro j
      refine ⟨σ.symm j, ?_, ?_⟩
      · show st.P (σ.symm j) j = 1
        rw [hPmat, Equiv.apply_symm_apply, if_pos rfl]
      · intro y hy
        have hy2 : st.P y j = 1 := hy
        by_cases hcase : σ y = j
        · rw [← hcase, Equiv.symm_apply_apply]
        · rw [hPmat, if_neg hcase] at hy2
          exact absurd hy2 (by norm_num)

/-- On `[[1]]`, `[1]` the LU path returns `L = P = I`, `U = [[1]]`, and
those matrices satisfy the structure and reconstruction properties. -/
theorem C4_lu_structure_witness :
    ((solveLUFactorization oneMat oneVec).L = some (idMat 1) ∧
      (solveLUFactorization oneMat oneVec).U = some oneMat ∧
      (solveLUFactorization oneMat oneVec).P = some (idMat 1)) ∧
    ((solveLUFactorization oneMat oneVec).status = .unique ∧
      (∀ i : Fin 1, idMat 1 i i = 1) ∧
      (∀ i j : Fin 1, j < i → oneMat i j = 0) ∧
      (∀ i j : Fin 1, idMat 1 i j = 0 ∨ idMat 1 i j = 1) ∧
      (∀ i : Fin 1, ∃! j : Fin 1, idMat 1 i j = 1) ∧
      (∀ j : Fin 1, ∃! i : Fin 1, idMat 1 i j = 1) ∧
      matMul (idMat 1) oneMat = matMul (idMat 1) oneMat) := by
  have h1 : (solveLUFactorization oneMat oneVec).L = some (idMat 1) := by
    rw [solveLU_of_some oneMat oneVec luRun_one]
    rfl
  have h2 : (solveLUFactorization oneMat oneVec).U = some oneMat := by
    rw [solveLU_of_some oneMat oneVec luRun_one]
    rfl
  have h3 : (solveLUFactorization oneMat oneVec).P = some (idMat 1) := by
    rw [solveLU_of_some oneMat oneVec luRun_one]
    rfl
  exact ⟨⟨h1, h2, h3⟩, C4_lu_structure oneMat oneVec h1 h2 h3⟩

/-! ### Matrix inversion: invariants of the `findInverse` loop -/

theorem invPivotStep_A_p {n : ℕ} (st : InvState n) (iF m : Fin n) (j : Fin n) :
    (invPivotStep st iF m).A iF j
      = swapRow st.A iF m iF j / swapRow st.A iF m iF iF := by
  rw [invPivotStep]
  dsimp only
  rw [if_neg (fun hc => hc rfl), if_pos rfl]

theorem invPivotStep_A_other {n : ℕ} (st : InvState n) (iF m : Fin n) (r j : Fin n)
    (hr : r ≠ iF) :
    (invPivotStep st iF m).A r j
      = swapRow st.A iF m r j - swapRow st.A iF m r iF *
          (swapRow st.A iF m iF j / swapRow st.A iF m iF iF) := by
  rw [invPivotStep]
  dsimp only
  rw [if_pos hr, if_neg hr, if_neg hr, if_pos rfl]

theorem invPivotStep_I_p {n : ℕ} (st : InvState n) (iF m : Fin n) (j : Fin n) :
    (invPivotStep st iF m).I iF j
      = swapRow st.I iF m iF j / swapRow st.A iF m iF iF := by
  rw [invPivotStep]
  dsimp only
  rw [if_neg (fun hc => hc rfl), if_pos rfl]

theorem invPivotStep_I_other {n : ℕ} (st : InvState n) (iF m : Fin n) (r j : Fin n)
    (hr : r ≠ iF) :
    (invPivotStep st iF m).I r j
      = swapRow st.I iF m r j - swapRow st.A iF m r iF *
          (swapRow st.I iF m iF j / swapRow st.A iF m iF iF) := by
  rw [invPivotStep]
  dsimp only
  rw [if_pos hr, if_neg hr, if_neg hr, if_pos rfl]

theorem invStep_eq {n k : ℕ} (st : InvState n) (hk : k < n) :
    invStep st k =
      if rabs (swapRow st.A ⟨k, hk⟩ (selectPivot st.A ⟨k, hk⟩ ⟨k, hk⟩) ⟨k, hk⟩ ⟨k, hk⟩) < EPS
      then Option.none
      else some (invPivotStep st ⟨k, hk⟩ (selectPivot st.A ⟨k, hk⟩ ⟨k, hk⟩)) := by
  rw [invStep, dif_pos hk]

theorem invRun_none_mono {n : ℕ} (A : Mat n) {k k' : ℕ} (hk : k ≤ k')
    (h : invRun A k = Option.none) : invRun A k' = Option.none := by
  induction k' with
  | zero => exact (Nat.le_zero.mp hk) ▸ h
  | succ k' ih =>
    rcases Nat.lt_or_ge k (k' + 1) with h2 | h2
    · rw [invRun_succ, ih (by omega), Option.none_bind]
    · exact (Nat.le_antisymm hk h2) ▸ h

theorem matMul_swapRow_left {n : ℕ} (M N : Mat n) (p q : Fin n) :
    matMul (swapRow M p q) N = swapRow (matMul M N) p q := by
  rw [swapRow_perm M p q, ← permMat_mul_left, matMul_assoc, permMat_mul_left,
    swapRow_perm (matMul M N) p q]

/-- The running invariant of `findInverse`: the augmented identity, applied
to the original matrix, reproduces the working copy. -/
theorem invRun_matmul {n : ℕ} (A : Mat n) :
    ∀ k (st : InvState n), invRun A k = some st → matMul st.I A = st.A := by
  intro k
  induction k with
  | zero =>
    intro st hst
    rw [invRun] at hst
    simp only [List.range_zero, List.foldl_nil, Option.some_inj] at hst
    rw [← hst]
    exact matMul_idMat_left A
  | succ k ih =>
    intro st hst
    rw [invRun_succ] at hst
    obtain ⟨st0, hrun, hstep⟩ := Option.bind_eq_some.mp hst
    have ihm := ih st0 hrun
    by_cases hkn : k < n
    · rw [invStep_eq st0 hkn] at hstep
      set kF : Fin n := ⟨k, hkn⟩ with hkFd
      set m := selectPivot st0.A kF kF with hmd
      by_cases hsmall : rabs (swapRow st0.A kF m kF kF) < EPS
      · rw [if_pos hsmall] at hstep
        exact Option.noConfusion hstep
      rw [if_neg hsmall] at hstep
      have hst2 : st = invPivotStep st0 kF m := (Option.some_inj.mp hstep).symm
      subst hst2
      have hA1 : matMul (swapRow st0.I kF m) A = swapRow st0.A kF m := by
        rw [matMul_swapRow_left, ihm]
      funext r j
      show matMul (invPivotStep st0 kF m).I A r j = (invPivotStep st0 kF m).A r j
      by_cases hr : r = kF
      · subst hr
        rw [invPivotStep_A_p st0 kF m j]
        calc matMul (invPivotStep st0 kF m).I A kF j
            = (∑ c : Fin n, swapRow st0.I kF m kF c * A c j)
                / swapRow st0.A kF m kF kF := by
              show (∑ c : Fin n, (invPivotStep st0 kF m).I kF c * A c j) = _
              rw [Finset.sum_div]
              refine Finset.sum_congr rfl fun c _ => ?_
              rw [invPivotStep_I_p st0 kF m c, div_mul_eq_mul_div]
          _ = swapRow st0.A kF m kF j / swapRow st0.A kF m kF kF := by
              rw [show (∑ c : Fin n, swapRow st0.I kF m kF c * A c j)
                  = matMul (swapRow st0.I kF m) A kF j from rfl, hA1]
      · rw [invPivotStep_A_other st0 kF m r j hr]
        calc matMul (invPivotStep st0 kF m).I A r j
            = ∑ c : Fin n, (swapRow st0.I kF m r c * A c j
                - swapRow st0.A kF m r kF *
                    (swapRow st0.I kF m kF c * A c j / swapRow st0.A kF m kF kF)) := by
              show (∑ c : Fin n, (invPivotStep st0 kF m).I r c * A c j) = _
              refine Finset.sum_congr rfl fun c _ => ?_
              rw [invPivotStep_I_other st0 kF m r c hr]
              ring
          _ = (∑ c : Fin n, swapRow st0.I kF m r c * A c j)
                - swapRow st0.A kF m r kF *
                    ((∑ c : Fin n, swapRow st0.I kF m kF c * A c j)
                      / swapRow st0.A kF m kF kF) := by
              rw [Finset.sum_sub_distrib, ← Finset.mul_sum, ← Finset.sum_div]
          _ = swapRow st0.A kF m r j - swapRow st0.A kF m r kF *
                (swapRow st0.A kF m kF j / swapRow st0.A kF m kF kF) := by
              rw [show (∑ c : Fin n, swapRow st0.I kF m r c * A c j)
                  = matMul (swapRow st0.I kF m) A r j from rfl,
                show (∑ c : Fin n, swapRow st0.I kF m kF c * A c j)
                  = matMul (swapRow st0.I kF m) A kF j from rfl, hA1]
    · rw [invStep, dif_neg hkn] at hstep
      rw [← Option.some_inj.mp hstep]
      exact ihm

/-- Along the `findInverse` loop, every processed column of the working
matrix is the corresponding identity column. -/
theorem invRun_idCols {n : ℕ} (A : Mat n) :
    ∀ k, k ≤ n → ∀ st : InvState n, invRun A k = some st →
      ∀ c : Fin n, c.val < k → ∀ r : Fin n,
        st.A r c = if r.val = c.val then 1 else 0 := by
  intro k
  induction k with
  | zero =>
    intro _ st _ c hc
    exact absurd hc (Nat.not_lt_zero _)
  | succ k ih =>
    intro hk st hst c hc r
    rw [invRun_succ] at hst
    obtain ⟨st0, hrun, hstep⟩ := Option.bind_eq_some.mp hst
    have hkn : k < n := by omega
    rw [invStep_eq st0 hkn] at hstep
    set kF : Fin n := ⟨k, hkn⟩ with hkFd
    set m := selectPivot st0.A kF kF with hmd
    have hkFval : kF.val = k := rfl
    by_cases hsmall : rabs (swapRow st0.A kF m kF kF) < EPS
    · rw [if_pos hsmall] at hstep
      exact Option.noConfusion hstep
    rw [if_neg hsmall] at hstep
    have hst2 : st = invPivotStep st0 kF m := (Option.some_inj.mp hstep).symm
    subst hst2
    have hpivne : swapRow st0.A kF m kF kF ≠ 0 := ne_zero_of_EPS_le (not_lt.mp hsmall)
    have hmge : kF ≤ m := hmd ▸ selectPivot_le st0.A kF kF
    have hmval : k ≤ m.val := hmge
    rcases Nat.lt_or_ge c.val k with hck | hck
    · have hid := fun r2 => ih (by omega) st0 hrun c hck r2
      have hA1c : ∀ r2 : Fin n, swapRow st0.A kF m r2 c
          = if r2.val = c.val then 1 else 0 := by
        intro r2
        simp only [swapRow]
        by_cases h1 : r2 = kF
        · rw [if_pos h1, hid m, if_neg (by omega : ¬m.val = c.val)]
          have h3 : ¬r2.val = c.val := by
            rw [h1, hkFval]
            omega
          rw [if_neg h3]
        · rw [if_neg h1]
          by_cases h2 : r2 = m
          · rw [if_pos h2, hid kF, if_neg (by omega : ¬kF.val = c.val)]
            have h3 : ¬r2.val = c.val := by
              rw [h2]
              omega
            rw [if_neg h3]
          · rw [if_neg h2]
            exact hid r2
      have hz : swapRow st0.A kF m kF c = 0 := by
        rw [hA1c kF, if_neg (by omega : ¬kF.val = c.val)]
      by_cases hr : r = kF
      · rw [hr, invPivotStep_A_p st0 kF m c, hz, zero_div,
          if_neg (by omega : ¬kF.val = c.val)]
      · rw [invPivotStep_A_other st0 kF m r c hr, hz, zero_div, mul_zero, sub_zero,
          hA1c r]
    · have hceq : c = kF := Fin.ext (by rw [hkFval]; omega)
      subst hceq
      by_cases hr : r = kF
      · rw [hr, invPivotStep_A_p st0 kF m kF, div_self hpivne, if_pos rfl]
      · rw [invPivotStep_A_other st0 kF m r kF hr, div_self hpivne, mul_one, sub_self,
          if_neg (fun hh => hr (Fin.ext hh))]

/-- When the `findInverse` loop completes, the working matrix has become
the identity. -/
theorem invRun_final_id {n : ℕ} (A : Mat n) {st : InvState n}
    (h : invRun A n = some st) : st.A = idMat n := by
  funext r c
  rw [invRun_idCols A n (le_refl n) st h c c.isLt r, idMat]
  by_cases hrc : r = c
  · rw [if_pos (by rw [hrc]), if_pos hrc]
  · rw [if_neg (fun hh => hrc (Fin.ext hh)), if_neg hrc]

/-- Over a commutative ring, a one-sided inverse of a square matrix is
two-sided; transported to the bespoke `matMul`. -/
theorem matMul_comm_one {n : ℕ} {M N : Mat n} (h : matMul M N = idMat n) :
    matMul N M = idMat n := by
  have hM : (Matrix.of M) * (Matrix.of N) = (1 : Matrix (Fin n) (Fin n) ℚ) := by
    ext i j
    rw [Matrix.mul_apply, Matrix.one_apply]
    exact congrFun (congrFun h i) j
  have h2 := Matrix.mul_eq_one_comm.mp hM
  funext i j
  have hh := congrFun (congrFun h2 i) j
  rw [Matrix.mul_apply, Matrix.one_apply] at hh
  exact hh

/-- C6: whenever `findInverse` succeeds, the returned matrix is an exact
two-sided inverse (in particular `A * findInverse A = I`); and whenever,
at some reached stage, the post-swap pivot magnitude is below `EPSILON`,
the whole call returns the failure signal `none` with no partial result. -/
theorem C6_inverse_roundtrip {n : ℕ} (A : Mat n) :
    (∀ Ainv : Mat n, findInverse A = some Ainv → matMul A Ainv = idMat n) ∧
    (∀ k, ∀ hk : k < n, ∀ st : InvState n, invRun A k = some st →
      rabs (swapRow st.A ⟨k, hk⟩ (selectPivot st.A ⟨k, hk⟩ ⟨k, hk⟩) ⟨k, hk⟩ ⟨k, hk⟩)
          < EPS →
      findInverse A = Option.none) := by
  constructor
  · intro Ainv hA
    rw [findInverse] at hA
    obtain ⟨st, hrun, hI⟩ := Option.map_eq_some'.mp hA
    have hleft : matMul st.I A = idMat n := by
      rw [invRun_matmul A n st hrun, invRun_final_id A hrun]
    rw [← hI]
    exact matMul_comm_one hleft
  · intro k hk st hrun hsmall
    have hstep : invStep st k = Option.none := by
      rw [invStep_eq st hk, if_pos hsmall]
    have h1 : invRun A (k + 1) = Option.none := by
      rw [invRun_succ, hrun, Option.some_bind]
      exact hstep
    have hn : invRun A n = Option.none := invRun_none_mono A (by omega) h1
    rw [findInverse, hn]
    rfl

end Solver

namespace Js

/-! ### Evaluation of the JS-semantics run on the dimension-mismatch input -/

theorem jswapRow_self (M : JsMat) (p : ℕ) : jswapRow M p p = M := by
  funext i
  rw [jswapRow]
  by_cases h : i = p
  · rw [if_pos h, h]
  · rw [if_neg h, if_neg h]

theorem jswap_self (v : JsVec) (p : ℕ) : jswap v p p = v := by
  funext i
  rw [jswap]
  by_cases h : i = p
  · rw [if_pos h, h]
  · rw [if_neg h, if_neg h]

theorem jlt_one_eps : jlt (jabs (JsNum.num 1)) jeps = false := by
  show decide (Solver.rabs 1 < Solver.EPS) = false
  exact decide_eq_false (by norm_num [Solver.rabs, Solver.EPS])

/-- Column 0 of the JS run: the pivot `1` is accepted and every update
subtracts an exact zero multiple, so the state only advances the pivot
counter. -/
theorem js_step0 : jgeStep 3 ⟨I3, bv2, 0⟩ 0 = ⟨I3, bv2, 1⟩ := by
  rw [jgeStep]
  dsimp only
  rw [if_pos (by norm_num : (0 : ℕ) < 3)]
  rw [show jselectPivot I3 3 0 0 = 0 from rfl]
  rw [show I3 0 0 = JsNum.num 1 from rfl, jlt_one_eps,
    if_neg (Bool.false_ne_true), jswapRow_self, jswap_self]
  rw [GEState.mk.injEq]
  refine ⟨?_, ?_, rfl⟩
  · funext i j
    dsimp only
    by_cases hi : 0 < i ∧ i < 3
    · rw [if_pos hi]
      rcases i with _ | _ | _ | i
      · exact absurd hi.1 (lt_irrefl 0)
      · rcases j with _ | _ | _ | j
        · rw [if_pos rfl]
          rfl
        · rw [if_neg (by omega), if_pos (by omega)]
          show JsNum.num (1 - 0 / 1 * 0) = JsNum.num 1
          exact congrArg JsNum.num (by norm_num)
        · rw [if_neg (by omega), if_pos (by omega)]
          show JsNum.num (0 - 0 / 1 * 0) = JsNum.num 0
          exact congrArg JsNum.num (by norm_num)
        · rw [if_neg (by omega), if_pos (by omega)]
          rfl
      · rcases j with _ | _ | _ | j
        · rw [if_pos rfl]
          rfl
        · rw [if_neg (by omega), if_pos (by omega)]
          show JsNum.num (0 - 0 / 1 * 0) = JsNum.num 0
          exact congrArg JsNum.num (by norm_num)
        · rw [if_neg (by omega), if_pos (by omega)]
          show JsNum.num (1 - 0 / 1 * 0) = JsNum.num 1
          exact congrArg JsNum.num (by norm_num)
        · rw [if_neg (by omega), if_pos (by omega)]
          rfl
      · exact absurd hi.2 (by omega)
    · rw [if_neg hi]
  · funext i
    dsimp only
    by_cases hi : 0 < i ∧ i < 3
    · rw [if_pos hi]
      rcases i with _ | _ | _ | i
      · exact absurd hi.1 (lt_irrefl 0)
      · show JsNum.num (2 - 0 / 1 * 1) = JsNum.num 2
        exact congrArg JsNum.num (by norm_num)
      · rfl
      · exact absurd hi.2 (by omega)
    · rw [if_neg hi]

/-- Column 1 of the JS run. -/
theorem js_step1 : jgeStep 3 ⟨I3, bv2, 1⟩ 1 = ⟨I3, bv2, 2⟩ := by
  rw [jgeStep]
  dsimp only
  rw [if_pos (by norm_num : (1 : ℕ) < 3)]
  rw [show jselectPivot I3 3 1 1 = 1 from rfl]
  rw [show I3 1 1 = JsNum.num 1 from rfl, jlt_one_eps,
    if_neg (Bool.false_ne_true), jswapRow_self, jswap_self]
  rw [GEState.mk.injEq]
  refine ⟨?_, ?_, rfl⟩
  · funext i j
    dsimp only
    by_cases hi : 1 < i ∧ i < 3
    · rw [if_pos hi]
      rcases i with _ | _ | _ | i
      · exact absurd hi.1 (by omega)
      · exact absurd hi.1 (by omega)
      · rcases j with _ | _ | _ | j
        · rw [if_neg (by omega), if_neg (by omega)]
        · rw [if_pos rfl]
          rfl
        · rw [if_neg (by omega), if_pos (by omega)]
          show JsNum.num (1 - 0 / 1 * 0) = JsNum.num 1
          exact congrArg JsNum.num (by norm_num)
        · rw [if_neg (by omega), if_pos (by omega)]
          rfl
      · exact absurd hi.2 (by omega)
    · rw [if_neg hi]
  · funext i
    dsimp only
    by_cases hi : 1 < i ∧ i < 3
    · rw [if_pos hi]
      rcases i with _ | _ | _ | i
      · exact absurd hi.1 (by omega)
      · exact absurd hi.1 (by omega)
      · rfl
      · exact absurd hi.2 (by omega)
    · rw [if_neg hi]

/-- Column 2 of the JS run: no row lies below the pivot, so only the
counter advances. -/
theorem js_step2 : jgeStep 3 ⟨I3, bv2, 2⟩ 2 = ⟨I3, bv2, 3⟩ := by
  rw [jgeStep]
  dsimp only
  rw [if_pos (by norm_num : (2 : ℕ) < 3)]
  rw [show jselectPivot I3 3 2 2 = 2 from rfl]
  rw [show I3 2 2 = JsNum.num 1 from rfl, jlt_one_eps,
    if_neg (Bool.false_ne_true), jswapRow_self, jswap_self]
  rw [GEState.mk.injEq]
  refine ⟨?_, ?_, rfl⟩
  · funext i j
    dsimp only
    rw [if_neg (by omega : ¬(2 < i ∧ i < 3))]
  · funext i
    dsimp only
    rw [if_neg (by omega : ¬(2 < i ∧ i < 3))]

/-- The complete JS-semantics run on the 3-by-3 identity with the
length-2 vector: it classifies the system as Unique and back-substitutes,
rather than failing. -/
theorem js_run_eval :
    jsolveGaussElimination 3 I3 bv2
      = { status := Solver.SolutionStatus.unique,
          solution := some (jbsAux 3 I3 bv2 3) } := by
  have hfold : (List.range 3).foldl (jgeStep 3) ⟨I3, bv2, 0⟩
      = (⟨I3, bv2, 3⟩ : GEState) := by
    show jgeStep 3 (jgeStep 3 (jgeStep 3 ⟨I3, bv2, 0⟩ 0) 1) 2 = _
    rw [js_step0, js_step1, js_step2]
  rw [jsolveGaussElimination, hfold]
  rfl

/-- C5 counterexample: under JS semantics, calling Gaussian elimination on
a 3-by-3 matrix with the length-2 vector `[1, 2]` does not fail at all: it
returns status Unique together with a solution array whose entry 2 is NaN,
so no DimensionMismatch failure happens before the arithmetic. -/
theorem C5_counterexample :
    (jsolveGaussElimination 3 I3 bv2).status = Solver.SolutionStatus.unique ∧
    (jsolveGaussElimination 3 I3 bv2).solution = some (jbsAux 3 I3 bv2 3) ∧
    jbsAux 3 I3 bv2 3 2 = JsNum.nan := by
  refine ⟨?_, ?_, rfl⟩
  · rw [js_run_eval]
  · rw [js_run_eval]

/-- C5 (amended): the source performs no dimension validation: with a
3-by-3 matrix and a length-2 vector, `solveGaussElimination` runs to
completion and returns status Unique with a solution array all of whose
entries are NaN — a misleading numeric result — rather than failing with
DimensionMismatch before any row operation. -/
theorem C5_no_dimension_check :
    jsolveGaussElimination 3 I3 bv2
      = { status := Solver.SolutionStatus.unique,
          solution := some (jbsAux 3 I3 bv2 3) } ∧
    jbsAux 3 I3 bv2 3 0 = JsNum.nan ∧
    jbsAux 3 I3 bv2 3 1 = JsNum.nan ∧
    jbsAux 3 I3 bv2 3 2 = JsNum.nan :=
  ⟨js_run_eval, rfl, rfl, rfl⟩

end Js

namespace Solver

/-- C8 counterexample: on the empty 0-by-0 system every solver returns an
ordinary status result (Unique), and `findInverse` returns a matrix, so no
operation fails on a dimension below 1. -/
theorem C8_counterexample :
    (solveGaussElimination emptyMat emptyVec).status = SolutionStatus.unique ∧
    (solveGaussJordan emptyMat emptyVec).status = SolutionStatus.unique ∧
    (solveLUFactorization emptyMat emptyVec).status = SolutionStatus.unique ∧
    findInverse emptyMat = some (idMat 0) :=
  ⟨rfl, rfl, rfl, rfl⟩

/-- C8 (amended): the source has no dimension validation: on the empty
0-by-0 input each solver returns status Unique with an empty solution
vector (`solveLUFactorization` even attaches empty `L`, `U`, `P`), and
`findInverse` returns the empty identity matrix, rather than failing with
InvalidDimension. -/
theorem C8_dimension_zero_result :
    solveGaussElimination emptyMat emptyVec
        = { status := .unique, solution := some (fun _ => 0) } ∧
    solveGaussJordan emptyMat emptyVec
        = { status := .unique, solution := some emptyVec } ∧
    solveLUFactorization emptyMat emptyVec
        = { status := .unique, solution := some (fun _ => 0),
            L := some (idMat 0), U := some emptyMat, P := some (idMat 0) } ∧
    findInverse emptyMat = some (idMat 0) :=
  ⟨rfl, rfl, rfl, rfl⟩

end Solver